import Mathlib

/-!
Verification development for the eizins-nippon-colors repository.

We give a shallow embedding of the core color pipeline:
  - hex/RGB conversions (`hex_to_rgb`, `rgb_to_hex` from eizins_nippon_colors.py),
  - the perceptual distance pipeline (sRGB -> XYZ -> Lab -> CIEDE2000); the
    numeric distance itself lives in third-party libraries (colormath / colour),
    so it is modelled from the spec over the reals,
  - the similarity index builder (`similarity_scores` from color_similarity.py),
  - the significance ranker (`significant_colors` from eizins_nippon_colors.py),
  - the three remap passes (direct / dithered / adaptive) from
    shin_enzin_color_replacement.py and shin_enzin.py.

Python ints are modelled as ℤ/ℕ, floats as ℚ where the code only does field
arithmetic and comparisons, and as ℝ where transcendental functions appear.
Fallible code (exceptions) returns Option.
-/

/-! ## Basic color representations -/

/-- A 24-bit-style RGB triple with natural-number channels (Python int tuple). -/
abbrev Rgb : Type := ℕ × ℕ × ℕ

/-- An RGB triple with integer channels, as produced by numpy `astype(int)`
during dithering (accumulated values may be negative or exceed 255). -/
abbrev RgbZ : Type := ℤ × ℤ × ℤ

/-- The sixteen uppercase hexadecimal digit characters. -/
def hexDigits : List Char :=
  ['0', '1', '2', '3', '4', '5', '6', '7', '8', '9', 'A', 'B', 'C', 'D', 'E', 'F']

/-- The uppercase hexadecimal digit character for a value below 16. -/
def hexDigitChar (n : ℕ) : Char := hexDigits.getD n '0'

/-- Value of a hexadecimal digit character; `int(s, 16)` accepts both cases. -/
def hexCharVal (c : Char) : Option ℕ :=
  if '0' ≤ c ∧ c ≤ '9' then some (c.toNat - '0'.toNat)
  else if 'a' ≤ c ∧ c ≤ 'f' then some (c.toNat - 'a'.toNat + 10)
  else if 'A' ≤ c ∧ c ≤ 'F' then some (c.toNat - 'A'.toNat + 10)
  else none

/-- Fuel-driven helper for `natToHexChars`; the fuel is structurally decreasing
so that concrete values reduce definitionally. -/
def natToHexAux (fuel n : ℕ) : List Char :=
  match fuel with
  | 0 => []
  | fuel + 1 => if n < 16 then [hexDigitChar n] else natToHexAux fuel (n / 16) ++ [hexDigitChar (n % 16)]

/-- Uppercase hexadecimal digit expansion of a natural number, most significant
digit first, mirroring Python `format(n, 'X')` for nonnegative `n`. -/
def natToHexChars (n : ℕ) : List Char := natToHexAux (n + 1) n

/-- Python `format(n, '02X')` on an arbitrary int: nonnegative numbers are
left-padded with '0' to width 2; negative numbers render as '-' followed by
the hex digits of the absolute value (the sign counts toward the width, so
no padding ever applies). -/
def pyFormat02X (n : ℤ) : String :=
  if n < 0 then String.mk ('-' :: natToHexChars n.natAbs)
  else
    let ds := natToHexChars n.toNat
    String.mk (if ds.length < 2 then '0' :: ds else ds)

/-- `rgb_to_hex` from eizins_nippon_colors.py:
`"{:02X}{:02X}{:02X}".format(rgb[0], rgb[1], rgb[2])`.
Integer-typed because the dithering passes feed it truncated accumulator
values that may lie outside [0, 255]. -/
def rgb_to_hex (c : RgbZ) : String :=
  pyFormat02X c.1 ++ pyFormat02X c.2.1 ++ pyFormat02X c.2.2

/-- `rgb_to_hex` applied to a natural-number RGB triple. -/
def rgbNatToHex (c : Rgb) : String :=
  rgb_to_hex ((c.1 : ℤ), (c.2.1 : ℤ), (c.2.2 : ℤ))

/-- Python slice `l[i:j]` on a character list. -/
def pySlice (l : List Char) (i j : ℕ) : List Char := (l.drop i).take (j - i)

/-- Python `int(s, 16)` restricted to strings of hexadecimal digit characters:
fails on the empty string or on any non-hex-digit character.  (Python also
tolerates surrounding whitespace, a sign, and inner underscores; no such
string arises from the six-hex-digit color domain handled here.) -/
def parseHexNat (l : List Char) : Option ℕ :=
  if l = [] then none
  else l.foldl (fun acc c => acc.bind fun a => (hexCharVal c).map fun v => 16 * a + v) (some 0)

/-- `hex_to_rgb` from eizins_nippon_colors.py:
strip leading '#', then `int(hex_color[i:i+2], 16) for i in (0, 2, 4)`; any
`ValueError` from `int` is modelled as `none`. -/
def hex_to_rgb (s : String) : Option Rgb :=
  let t := s.toList.dropWhile (fun c => c = '#')
  match parseHexNat (pySlice t 0 2), parseHexNat (pySlice t 2 4), parseHexNat (pySlice t 4 6) with
  | some r, some g, some b => some (r, g, b)
  | _, _, _ => none

/-! ## Round-trip lemmas for the 24-bit domain -/

theorem hexCharVal_hexDigitChar {k : ℕ} (h : k < 16) :
    hexCharVal (hexDigitChar k) = some k := by
  interval_cases k <;> decide

theorem natToHexAux_small {fuel n : ℕ} (hf : 0 < fuel) (h : n < 16) :
    natToHexAux fuel n = [hexDigitChar n] := by
  cases fuel with
  | zero => omega
  | succ f => rw [natToHexAux, if_pos h]

theorem natToHexChars_lt {n : ℕ} (h : n < 16) : natToHexChars n = [hexDigitChar n] :=
  natToHexAux_small (Nat.succ_pos n) h

theorem natToHexChars_byte {n : ℕ} (h16 : 16 ≤ n) (h : n ≤ 255) :
    natToHexChars n = [hexDigitChar (n / 16), hexDigitChar (n % 16)] := by
  rw [natToHexChars, natToHexAux, if_neg (by omega)]
  rw [natToHexAux_small (by omega) (by omega)]
  rfl

/-- For a byte value, `format(n, '02X')` is exactly the two hex digits. -/
theorem pyFormat02X_byte {n : ℕ} (h : n ≤ 255) :
    pyFormat02X (n : ℤ) = String.mk [hexDigitChar (n / 16), hexDigitChar (n % 16)] := by
  rw [pyFormat02X, if_neg (by exact not_lt.mpr (Int.natCast_nonneg n))]
  simp only [Int.toNat_natCast]
  by_cases h16 : n < 16
  · rw [natToHexChars_lt h16]
    have hdiv : n / 16 = 0 := Nat.div_eq_of_lt h16
    have hmod : n % 16 = n := Nat.mod_eq_of_lt h16
    simp [hdiv, hmod, hexDigitChar, hexDigits]
  · rw [natToHexChars_byte (by omega) h]
    simp

theorem parseHexNat_two {a b : ℕ} (ha : a < 16) (hb : b < 16) :
    parseHexNat [hexDigitChar a, hexDigitChar b] = some (16 * a + b) := by
  rw [parseHexNat, if_neg (by simp)]
  simp [List.foldl, hexCharVal_hexDigitChar ha, hexCharVal_hexDigitChar hb]

theorem hexDigitChar_mem (n : ℕ) : hexDigitChar n ∈ hexDigits := by
  rcases Nat.lt_or_ge n 16 with h | h
  · interval_cases n <;> decide
  · rw [hexDigitChar, List.getD_eq_default _ _ (by simpa [hexDigits] using h)]
    decide

theorem hexDigitChar_ne_hash (n : ℕ) : hexDigitChar n ≠ '#' := by
  have := hexDigitChar_mem n
  revert this
  rw [hexDigits]
  intro h hc
  rw [hc] at h
  simp at h

theorem rgbNatToHex_toList {r g b : ℕ} (hr : r ≤ 255) (hg : g ≤ 255) (hb : b ≤ 255) :
    (rgbNatToHex (r, g, b)).toList =
      [hexDigitChar (r / 16), hexDigitChar (r % 16), hexDigitChar (g / 16),
       hexDigitChar (g % 16), hexDigitChar (b / 16), hexDigitChar (b % 16)] := by
  rw [rgbNatToHex, rgb_to_hex]
  simp only [pyFormat02X_byte hr, pyFormat02X_byte hg, pyFormat02X_byte hb]
  rfl

/-- Parsing the canonical hex form of a byte triple returns the triple. -/
theorem hex_to_rgb_roundtrip (r g b : ℕ) (hr : r ≤ 255) (hg : g ≤ 255) (hb : b ≤ 255) :
    hex_to_rgb (rgbNatToHex (r, g, b)) = some (r, g, b) := by
  have hl := rgbNatToHex_toList hr hg hb
  have hdr : r / 16 < 16 := by omega
  have hdg : g / 16 < 16 := by omega
  have hdb : b / 16 < 16 := by omega
  rw [hex_to_rgb, hl]
  have hdrop :
      List.dropWhile (fun c => decide (c = '#'))
        [hexDigitChar (r / 16), hexDigitChar (r % 16), hexDigitChar (g / 16),
         hexDigitChar (g % 16), hexDigitChar (b / 16), hexDigitChar (b % 16)] =
        [hexDigitChar (r / 16), hexDigitChar (r % 16), hexDigitChar (g / 16),
         hexDigitChar (g % 16), hexDigitChar (b / 16), hexDigitChar (b % 16)] := by
    rw [List.dropWhile_cons]
    simp [hexDigitChar_ne_hash]
  simp only [hdrop]
  have s1 : pySlice [hexDigitChar (r / 16), hexDigitChar (r % 16), hexDigitChar (g / 16),
      hexDigitChar (g % 16), hexDigitChar (b / 16), hexDigitChar (b % 16)] 0 2 =
      [hexDigitChar (r / 16), hexDigitChar (r % 16)] := rfl
  have s2 : pySlice [hexDigitChar (r / 16), hexDigitChar (r % 16), hexDigitChar (g / 16),
      hexDigitChar (g % 16), hexDigitChar (b / 16), hexDigitChar (b % 16)] 2 4 =
      [hexDigitChar (g / 16), hexDigitChar (g % 16)] := rfl
  have s3 : pySlice [hexDigitChar (r / 16), hexDigitChar (r % 16), hexDigitChar (g / 16),
      hexDigitChar (g % 16), hexDigitChar (b / 16), hexDigitChar (b % 16)] 4 6 =
      [hexDigitChar (b / 16), hexDigitChar (b % 16)] := rfl
  rw [s1, s2, s3, parseHexNat_two hdr (Nat.mod_lt r (by norm_num)),
      parseHexNat_two hdg (Nat.mod_lt g (by norm_num)),
      parseHexNat_two hdb (Nat.mod_lt b (by norm_num))]
  simp only [Nat.div_add_mod]

/-- C8: for every 24-bit RGB triple (each channel in [0, 255]), converting to a
hex string with `rgb_to_hex` and back with `hex_to_rgb` yields the same triple,
and the hex form produced is the canonical 6-hex-digit uppercase string with no
'#' prefix. -/
theorem C8_hex_roundtrip_canonical (r g b : ℕ) (hr : r ≤ 255) (hg : g ≤ 255) (hb : b ≤ 255) :
    hex_to_rgb (rgbNatToHex (r, g, b)) = some (r, g, b) ∧
    (rgbNatToHex (r, g, b)).toList.length = 6 ∧
    (∀ c ∈ (rgbNatToHex (r, g, b)).toList, c ∈ hexDigits) ∧
    '#' ∉ (rgbNatToHex (r, g, b)).toList := by
  have hl := rgbNatToHex_toList hr hg hb
  have hdr : r / 16 < 16 := by omega
  have hdg : g / 16 < 16 := by omega
  have hdb : b / 16 < 16 := by omega
  refine ⟨?_, ?_, ?_, ?_⟩
  · exact hex_to_rgb_roundtrip r g b hr hg hb
  · rw [hl]; rfl
  · rw [hl]
    intro c hc
    simp only [List.mem_cons, List.not_mem_nil, or_false] at hc
    rcases hc with h | h | h | h | h | h <;> rw [h] <;> exact hexDigitChar_mem _
  · rw [hl]
    intro hc
    simp only [List.mem_cons, List.not_mem_nil, or_false] at hc
    rcases hc with h | h | h | h | h | h <;> exact hexDigitChar_ne_hash _ h.symm

/-- Witness for C8 at the concrete triple (18, 52, 86). -/
theorem C8_hex_roundtrip_canonical_witness :
    hex_to_rgb (rgbNatToHex (18, 52, 86)) = some (18, 52, 86) ∧
    (rgbNatToHex (18, 52, 86)).toList.length = 6 ∧
    (∀ c ∈ (rgbNatToHex (18, 52, 86)).toList, c ∈ hexDigits) ∧
    '#' ∉ (rgbNatToHex (18, 52, 86)).toList :=
  C8_hex_roundtrip_canonical 18 52 86 (by norm_num) (by norm_num) (by norm_num)

/-- C9 counterexample: the conversion operations do not fail fast on malformed
input.  The 5-digit hex string "FFFFF" (wrong digit count) is silently accepted
with the last channel read from a single digit, and `rgb_to_hex` silently
formats out-of-range channels (256 and -1) into non-canonical strings instead
of raising or clamping. -/
theorem C9_counterexample_malformed_accepted :
    hex_to_rgb "FFFFF" = some (255, 255, 15) ∧
    hex_to_rgb "FF00A0CC" = some (255, 0, 160) ∧
    rgb_to_hex (256, 0, 0) = "1000000" ∧
    rgb_to_hex (-1, 0, 0) = "-10000" := by
  refine ⟨by decide, by decide, by decide, by decide⟩

/-- C9 amended: hex strings whose '#'-stripped form has at most 4 characters do
fail fast in `hex_to_rgb` (the third two-character slice is empty, so `int`
raises), but a 5-character hex string is silently accepted (third channel read
from one digit), characters beyond the sixth are silently ignored, and
`rgb_to_hex` accepts out-of-range channels without error and without clamping. -/
theorem C9_amended_partial_validation (s : String)
    (h : (s.toList.dropWhile (fun c => c = '#')).length ≤ 4) :
    hex_to_rgb s = none ∧
    hex_to_rgb "FFFFF" = some (255, 255, 15) ∧
    hex_to_rgb "FF00A0CC" = some (255, 0, 160) ∧
    rgb_to_hex (256, 0, 0) = "1000000" ∧
    rgb_to_hex (-1, 0, 0) = "-10000" := by
  refine ⟨?_, by decide, by decide, by decide, by decide⟩
  rw [hex_to_rgb]
  have h3 : pySlice (s.toList.dropWhile (fun c => c = '#')) 4 6 = [] := by
    rw [pySlice, List.drop_eq_nil_of_le (by simpa using h)]
    rfl
  simp only [h3]
  have hm : parseHexNat ([] : List Char) = none := rfl
  cases parseHexNat (pySlice (s.toList.dropWhile (fun c => c = '#')) 0 2) <;>
    cases parseHexNat (pySlice (s.toList.dropWhile (fun c => c = '#')) 2 4) <;>
    simp [hm]

/-- Witness for the amended C9 at the concrete too-short string "FF". -/
theorem C9_amended_partial_validation_witness :
    hex_to_rgb "FF" = none ∧
    hex_to_rgb "FFFFF" = some (255, 255, 15) ∧
    hex_to_rgb "FF00A0CC" = some (255, 0, 160) ∧
    rgb_to_hex (256, 0, 0) = "1000000" ∧
    rgb_to_hex (-1, 0, 0) = "-10000" :=
  C9_amended_partial_validation "FF" (by decide)

/-! ## Pixel grids and the remapping passes -/

/-- A float-accumulator pixel (numpy float32 row), modelled over ℚ. -/
abbrev Pix : Type := ℚ × ℚ × ℚ

def padd (a b : Pix) : Pix := (a.1 + b.1, a.2.1 + b.2.1, a.2.2 + b.2.2)

def psub (a b : Pix) : Pix := (a.1 - b.1, a.2.1 - b.2.1, a.2.2 - b.2.2)

def psmul (q : ℚ) (a : Pix) : Pix := (q * a.1, q * a.2.1, q * a.2.2)

/-- numpy float-to-int conversion (`astype(int)`) truncates toward zero. -/
def pyTrunc (q : ℚ) : ℤ := if q < 0 then ⌈q⌉ else ⌊q⌋

def truncPix (p : Pix) : RgbZ := (pyTrunc p.1, pyTrunc p.2.1, pyTrunc p.2.2)

/-- Python `min(items, key=lambda x: x[1])` on a nonempty association list:
the first pair attaining the minimal value. -/
def pyMinByVal {α : Type} [LinearOrder α] (e : String × α) (l : List (String × α)) :
    String × α :=
  l.foldl (fun acc x => if x.2 < acc.2 then x else acc) e

/-- Stable insertion into a list sorted ascending by second component: an
element is placed before the first strictly-or-equally larger value, so earlier
elements with equal values stay first. -/
def insertByVal {α : Type} [LinearOrder α] (x : String × α) :
    List (String × α) → List (String × α)
  | [] => [x]
  | y :: ys => if x.2 ≤ y.2 then x :: y :: ys else y :: insertByVal x ys

/-- Python `sorted(items, key=lambda x: x[1])`: a stable ascending sort. -/
def sortByVal {α : Type} [LinearOrder α] : List (String × α) → List (String × α)
  | [] => []
  | x :: xs => insertByVal x (sortByVal xs)

/-- `sorted(items, key=lambda x: x[1])[0]`, as used by the shin_enzin.py
passes to pick the best entry. -/
def sortedBest {α : Type} [LinearOrder α] (e : String × α) (l : List (String × α)) :
    String × α :=
  (sortByVal (e :: l)).headD e

/-- An RGB image: a width x height grid of pixels; `pix y x` is row y, column
x (numpy `img_array[y, x]`, PIL `pixel_map[x, y]`). -/
structure Img : Type where
  width : ℕ
  height : ℕ
  pix : ℕ → ℕ → Rgb

/-- One pixel of `DirectColorReplacer.replace_colors`: look the pixel's hex up
in the similarity mapping; a missing key or an empty entry dict (both falsy in
`if nippon_alternatives := ...get(...)`) leaves the pixel unchanged; otherwise
the minimum-score entry's hex is parsed (`none` models the `ValueError` the
source would raise on an unparseable key). -/
def replacePixel {α : Type} [LinearOrder α] (M : String → Option (List (String × α)))
    (c : Rgb) : Option Rgb :=
  match M (rgbNatToHex c) with
  | none => some c
  | some [] => some c
  | some (e :: l) => hex_to_rgb (pyMinByVal e l).1

/-- `DirectColorReplacer.replace_colors` from shin_enzin_color_replacement.py:
replace every pixel by its best similarity-mapping entry, leaving pixels whose
color has no (nonempty) entry unchanged; `none` models the pass raising at
some pixel. -/
def replace_colors {α : Type} [LinearOrder α] (M : String → Option (List (String × α)))
    (img : Img) : Option Img :=
  if ∀ y < img.height, ∀ x < img.width, (replacePixel M (img.pix y x)).isSome then
    some { width := img.width, height := img.height,
           pix := fun y x => (replacePixel M (img.pix y x)).getD (img.pix y x) }
  else none

/-- The float accumulator array for one dithering pass. -/
abbrev Grid : Type := ℕ → ℕ → Pix

def upd (g : Grid) (y x : ℕ) (v : Pix) : Grid :=
  fun i j => if i = y ∧ j = x then v else g i j

def addAt (g : Grid) (y x : ℕ) (v : Pix) : Grid := upd g y x (padd (g y x) v)

def toFloatGrid (img : Img) : Grid :=
  fun y x => (((img.pix y x).1 : ℚ), ((img.pix y x).2.1 : ℚ), ((img.pix y x).2.2 : ℚ))

/-- numpy `np.clip(v, 0, 255).astype(np.uint8)` per channel. -/
def clampByte (q : ℚ) : ℕ := (⌊max 0 (min q 255)⌋).toNat

def clampPix (p : Pix) : Rgb := (clampByte p.1, clampByte p.2.1, clampByte p.2.2)

/-- Distribute the Floyd-Steinberg quantization error `err`, scaled by
`strength`, from position (y, x): 7/16 to the right neighbor, 3/16 below-left,
5/16 below, 1/16 below-right, skipping neighbors outside the w x h bounds
(the plain dithering passes use `strength = 1`). -/
def diffuseError (w h : ℕ) (g : Grid) (y x : ℕ) (err : Pix) (strength : ℚ) : Grid :=
  let g2 := if x + 1 < w then addAt g y (x + 1) (psmul (7 / 16 * strength) err) else g
  if y + 1 < h then
    let g3 := if 1 ≤ x then addAt g2 (y + 1) (x - 1) (psmul (3 / 16 * strength) err) else g2
    let g4 := addAt g3 (y + 1) x (psmul (5 / 16 * strength) err)
    if x + 1 < w then addAt g4 (y + 1) (x + 1) (psmul (1 / 16 * strength) err) else g4
  else g2

/-- One pixel of `replace_colors_with_dithering`: truncate the accumulated
pixel to ints, look its hex up; on a hit replace by the minimum-score entry
(parse failure models the source raising), on a miss keep the accumulated
value; write the chosen value and diffuse `accumulated - chosen`. -/
def ditherStep {α : Type} [LinearOrder α] (M : String → Option (List (String × α)))
    (w h : ℕ) (g : Grid) (y x : ℕ) : Option Grid :=
  let old := g y x
  let newPix? : Option Pix :=
    match M (rgb_to_hex (truncPix old)) with
    | none => some old
    | some [] => some old
    | some (e :: l) =>
        (hex_to_rgb (pyMinByVal e l).1).map fun c => ((c.1 : ℚ), (c.2.1 : ℚ), (c.2.2 : ℚ))
  newPix?.map fun newp => diffuseError w h (upd g y x newp) y x (psub old newp) 1

/-- The pixels of one pass in raster order: row-major, left to right, top to
bottom (`for y in range(height): for x in range(width)`). -/
def rasterPositions (h w : ℕ) : List (ℕ × ℕ) :=
  (List.range h).flatMap fun y => (List.range w).map fun x => (y, x)

def ditherPass {α : Type} [LinearOrder α] (M : String → Option (List (String × α)))
    (w h : ℕ) (g : Grid) : Option Grid :=
  (rasterPositions h w).foldl (fun acc p => acc.bind fun g0 => ditherStep M w h g0 p.1 p.2)
    (some g)

/-- `DirectColorReplacer.replace_colors_with_dithering`: a light pre-blur
(external PIL filter, taken as a parameter), the Floyd-Steinberg pass over a
float accumulator, clamping to [0, 255] bytes only when the output image is
produced, then a light post-blur (also external). -/
def replace_colors_with_dithering {α : Type} [LinearOrder α]
    (M : String → Option (List (String × α))) (blurPre blurPost : Img → Img)
    (img : Img) : Option Img :=
  let b := blurPre img
  (ditherPass M b.width b.height (toFloatGrid b)).map fun gf =>
    blurPost { width := b.width, height := b.height, pix := fun y x => clampPix (gf y x) }

/-- One pixel of `enzin_in_nippon_colors_improved` from shin_enzin.py: the
same Floyd-Steinberg step, selecting `sorted(items, key=value)[0]`. -/
def enzinDitherStep {α : Type} [LinearOrder α] (M : String → Option (List (String × α)))
    (w h : ℕ) (g : Grid) (y x : ℕ) : Option Grid :=
  let old := g y x
  let newPix? : Option Pix :=
    match M (rgb_to_hex (truncPix old)) with
    | none => some old
    | some [] => some old
    | some (e :: l) =>
        (hex_to_rgb (sortedBest e l).1).map fun c => ((c.1 : ℚ), (c.2.1 : ℚ), (c.2.2 : ℚ))
  newPix?.map fun newp => diffuseError w h (upd g y x newp) y x (psub old newp) 1

def enzinDitherPass {α : Type} [LinearOrder α] (M : String → Option (List (String × α)))
    (w h : ℕ) (g : Grid) : Option Grid :=
  (rasterPositions h w).foldl
    (fun acc p => acc.bind fun g0 => enzinDitherStep M w h g0 p.1 p.2) (some g)

/-- `enzin_in_nippon_colors_improved` from shin_enzin.py: Floyd-Steinberg
dithering with no blurring; clamping to bytes happens only at output time. -/
def enzin_in_nippon_colors_improved {α : Type} [LinearOrder α]
    (M : String → Option (List (String × α))) (img : Img) : Option Img :=
  (enzinDitherPass M img.width img.height (toFloatGrid img)).map fun gf =>
    { width := img.width, height := img.height, pix := fun y x => clampPix (gf y x) }

/-- One pixel of `enzin_in_nippon_colors_enhanced` from shin_enzin.py.  The
state carries the accumulator grid and the number of random draws consumed;
`np.random.random()` is modelled by the stream `rand` and is consumed exactly
when the entry list has more than one element.  The diffusion strength is
`0.4 + (edge[y, x] / 255) * 0.4`. -/
def enhancedStep {α : Type} [LinearOrder α] (M : String → Option (List (String × α)))
    (edge : ℕ → ℕ → ℕ) (rand : ℕ → ℚ) (w h : ℕ)
    (st : Grid × ℕ) (y x : ℕ) : Option (Grid × ℕ) :=
  let g := st.1
  let old := g y x
  let strength : ℚ := 2 / 5 + (edge y x : ℚ) / 255 * (2 / 5)
  match M (rgb_to_hex (truncPix old)) with
  | none => some (diffuseError w h (upd g y x old) y x (psub old old) strength, st.2)
  | some [] => some (diffuseError w h (upd g y x old) y x (psub old old) strength, st.2)
  | some (e :: l) =>
      let cs := sortByVal (e :: l)
      let pick : (String × α) × ℕ :=
        if l = [] then (cs.getD 0 e, st.2)
        else if rand st.2 < 1 / 10 then (cs.getD 1 e, st.2 + 1) else (cs.getD 0 e, st.2 + 1)
      (hex_to_rgb pick.1.1).map fun c =>
        let newp : Pix := ((c.1 : ℚ), (c.2.1 : ℚ), (c.2.2 : ℚ))
        (diffuseError w h (upd g y x newp) y x (psub old newp) strength, pick.2)

def enhancedPass {α : Type} [LinearOrder α] (M : String → Option (List (String × α)))
    (edge : ℕ → ℕ → ℕ) (rand : ℕ → ℚ) (w h : ℕ) (st : Grid × ℕ) :
    Option (Grid × ℕ) :=
  (rasterPositions h w).foldl
    (fun acc p => acc.bind fun st0 => enhancedStep M edge rand w h st0 p.1 p.2) (some st)

/-- `enzin_in_nippon_colors_enhanced` from shin_enzin.py: pre-blur, an edge
map from an external edge-detection filter on the blurred image, the adaptive
Floyd-Steinberg pass, byte clamping only at output time, then a post-blur.
The external PIL filters are parameters. -/
def enzin_in_nippon_colors_enhanced {α : Type} [LinearOrder α]
    (M : String → Option (List (String × α))) (edgeOf : Img → ℕ → ℕ → ℕ)
    (rand : ℕ → ℚ) (blurPre blurPost : Img → Img) (img : Img) : Option Img :=
  let b := blurPre img
  (enhancedPass M (edgeOf b) rand b.width b.height (toFloatGrid b, 0)).map fun st =>
    blurPost { width := b.width, height := b.height, pix := fun y x => clampPix (st.1 y x) }

/-! ## Frame lemmas for the diffusion step -/

theorem upd_apply (g : Grid) (y x : ℕ) (v : Pix) (i j : ℕ) :
    upd g y x v i j = if i = y ∧ j = x then v else g i j := rfl

theorem addAt_apply (g : Grid) (y x : ℕ) (v : Pix) (i j : ℕ) :
    addAt g y x v i j = if i = y ∧ j = x then padd (g y x) v else g i j := rfl

theorem diffuseError_right {w h : ℕ} {g : Grid} {y x : ℕ} {err : Pix} {s : ℚ}
    (hx : x + 1 < w) :
    diffuseError w h g y x err s y (x + 1) = padd (g y (x + 1)) (psmul (7 / 16 * s) err) := by
  rw [diffuseError]
  by_cases hy : y + 1 < h <;> by_cases hx0 : 1 ≤ x <;>
    simp only [hx, hy, hx0, if_true, if_false, addAt_apply, true_and, and_true] <;>
    split_ifs <;> first | rfl | omega

theorem diffuseError_belowLeft {w h : ℕ} {g : Grid} {y x : ℕ} {err : Pix} {s : ℚ}
    (hy : y + 1 < h) (hx0 : 1 ≤ x) :
    diffuseError w h g y x err s (y + 1) (x - 1) =
      padd (g (y + 1) (x - 1)) (psmul (3 / 16 * s) err) := by
  rw [diffuseError]
  by_cases hx : x + 1 < w <;>
    simp only [hx, hy, hx0, if_true, if_false, addAt_apply, true_and, and_true] <;>
    split_ifs <;> first | rfl | omega

theorem diffuseError_below {w h : ℕ} {g : Grid} {y x : ℕ} {err : Pix} {s : ℚ}
    (hy : y + 1 < h) :
    diffuseError w h g y x err s (y + 1) x = padd (g (y + 1) x) (psmul (5 / 16 * s) err) := by
  rw [diffuseError]
  by_cases hx : x + 1 < w <;> by_cases hx0 : 1 ≤ x <;>
    simp only [hx, hy, hx0, if_true, if_false, addAt_apply, true_and, and_true] <;>
    split_ifs <;> first | rfl | omega

theorem diffuseError_belowRight {w h : ℕ} {g : Grid} {y x : ℕ} {err : Pix} {s : ℚ}
    (hy : y + 1 < h) (hx : x + 1 < w) :
    diffuseError w h g y x err s (y + 1) (x + 1) =
      padd (g (y + 1) (x + 1)) (psmul (1 / 16 * s) err) := by
  rw [diffuseError]
  by_cases hx0 : 1 ≤ x <;>
    simp only [hx, hy, hx0, if_true, if_false, addAt_apply, true_and, and_true] <;>
    split_ifs <;> first | rfl | omega

theorem diffuseError_frame {w h : ℕ} {g : Grid} {y x : ℕ} {err : Pix} {s : ℚ} {i j : ℕ}
    (h1 : ¬(i = y ∧ j = x + 1 ∧ x + 1 < w))
    (h2 : ¬(i = y + 1 ∧ j = x - 1 ∧ 1 ≤ x ∧ y + 1 < h))
    (h3 : ¬(i = y + 1 ∧ j = x ∧ y + 1 < h))
    (h4 : ¬(i = y + 1 ∧ j = x + 1 ∧ x + 1 < w ∧ y + 1 < h)) :
    diffuseError w h g y x err s i j = g i j := by
  rw [diffuseError]
  by_cases hy : y + 1 < h <;> by_cases hx : x + 1 < w <;> by_cases hx0 : 1 ≤ x <;>
    simp only [hx, hy, hx0, if_true, if_false, addAt_apply, true_and, and_true] <;>
    split_ifs <;> first | rfl | omega

/-! ## Properties of the minimum / stable-sort selection helpers -/

theorem pyMinByVal_mem {α : Type} [LinearOrder α] (e : String × α) (l : List (String × α)) :
    pyMinByVal e l ∈ e :: l := by
  induction l generalizing e with
  | nil => simp [pyMinByVal]
  | cons y ys ih =>
    have h0 : pyMinByVal e (y :: ys) = pyMinByVal (if y.2 < e.2 then y else e) ys := rfl
    rw [h0]
    have := ih (if y.2 < e.2 then y else e)
    rcases List.mem_cons.mp this with h | h
    · rw [h]
      by_cases hc : y.2 < e.2 <;> simp [hc]
    · simp [List.mem_cons, h]

theorem pyMinByVal_le {α : Type} [LinearOrder α] (e : String × α) (l : List (String × α)) :
    ∀ p ∈ e :: l, (pyMinByVal e l).2 ≤ p.2 := by
  induction l generalizing e with
  | nil =>
    intro p hp
    simp only [List.mem_singleton] at hp
    subst hp
    exact le_refl _
  | cons y ys ih =>
    intro p hp
    have h0 : pyMinByVal e (y :: ys) = pyMinByVal (if y.2 < e.2 then y else e) ys := rfl
    rw [h0]
    have hself : (pyMinByVal (if y.2 < e.2 then y else e) ys).2 ≤ (if y.2 < e.2 then y else e).2 :=
      ih (if y.2 < e.2 then y else e) _ (List.mem_cons_self _ _)
    have hle_e : (if y.2 < e.2 then y else e).2 ≤ e.2 := by
      by_cases hc : y.2 < e.2
      · rw [if_pos hc]; exact le_of_lt hc
      · rw [if_neg hc]
    have hle_y : (if y.2 < e.2 then y else e).2 ≤ y.2 := by
      by_cases hc : y.2 < e.2
      · rw [if_pos hc]
      · rw [if_neg hc]; exact not_lt.mp hc
    rcases List.mem_cons.mp hp with rfl | hp2
    · exact le_trans hself hle_e
    · rcases List.mem_cons.mp hp2 with rfl | hp3
      · exact le_trans hself hle_y
      · exact ih _ _ (List.mem_cons_of_mem _ hp3)

theorem pyMinByVal_cons {α : Type} [LinearOrder α] (e y : String × α) (l : List (String × α)) :
    pyMinByVal e (y :: l) =
      if e.2 ≤ (pyMinByVal y l).2 then e else pyMinByVal y l := by
  induction l generalizing e y with
  | nil =>
    show (if y.2 < e.2 then y else e) = if e.2 ≤ y.2 then e else y
    by_cases h : e.2 ≤ y.2
    · rw [if_neg (not_lt.mpr h), if_pos h]
    · rw [if_pos (not_le.mp h), if_neg h]
  | cons z zs ih =>
    have h0 : pyMinByVal e (y :: z :: zs) = pyMinByVal (if y.2 < e.2 then y else e) (z :: zs) := rfl
    rw [h0, ih, ih y z]
    by_cases h1 : y.2 < e.2
    · rw [if_pos h1]
      by_cases h2 : y.2 ≤ (pyMinByVal z zs).2
      · rw [if_pos h2, if_neg (not_le.mpr h1)]
      · rw [if_neg h2, if_neg (not_le.mpr (lt_trans (not_le.mp h2) h1))]
    · have he : e.2 ≤ y.2 := not_lt.mp h1
      rw [if_neg h1]
      by_cases h2 : e.2 ≤ (pyMinByVal z zs).2
      · rw [if_pos h2]
        by_cases h3 : y.2 ≤ (pyMinByVal z zs).2
        · rw [if_pos h3, if_pos he]
        · rw [if_neg h3, if_pos h2]
      · rw [if_neg h2]
        by_cases h3 : y.2 ≤ (pyMinByVal z zs).2
        · exact absurd h3 (not_le.mpr (lt_of_lt_of_le (not_le.mp h2) he))
        · rw [if_neg h3, if_neg h2]

theorem insertByVal_ne_nil {α : Type} [LinearOrder α] (x : String × α)
    (s : List (String × α)) : insertByVal x s ≠ [] := by
  cases s with
  | nil => simp [insertByVal]
  | cons z zs =>
    rw [insertByVal]
    split <;> simp

theorem insertByVal_headD_cons {α : Type} [LinearOrder α] (x d z : String × α)
    (zs : List (String × α)) :
    (insertByVal x (z :: zs)).headD d = if x.2 ≤ z.2 then x else z := by
  rw [insertByVal]
  split <;> rfl

theorem sortedBest_eq_pyMinByVal {α : Type} [LinearOrder α] (e : String × α)
    (l : List (String × α)) : sortedBest e l = pyMinByVal e l := by
  induction l generalizing e with
  | nil => rfl
  | cons y ys ih =>
    rw [pyMinByVal_cons]
    have hs : sortByVal (e :: y :: ys) = insertByVal e (sortByVal (y :: ys)) := rfl
    rw [sortedBest, hs]
    obtain ⟨m, t, hmt⟩ : ∃ m t, sortByVal (y :: ys) = m :: t := by
      cases hsy : sortByVal (y :: ys) with
      | nil => exact absurd hsy (insertByVal_ne_nil y (sortByVal ys))
      | cons m t => exact ⟨m, t, rfl⟩
    have hm : m = pyMinByVal y ys := by
      have hh := ih y
      rw [sortedBest, hmt] at hh
      simpa using hh
    rw [hmt, insertByVal_headD_cons, hm]

/-! ## Characterization of one dithering step -/

theorem enzinDitherStep_eq_ditherStep {α : Type} [LinearOrder α]
    (M : String → Option (List (String × α))) (w h : ℕ) (g : Grid) (y x : ℕ) :
    enzinDitherStep M w h g y x = ditherStep M w h g y x := by
  simp only [enzinDitherStep, ditherStep, sortedBest_eq_pyMinByVal]

theorem ditherStep_spec {α : Type} [LinearOrder α]
    (M : String → Option (List (String × α))) (w h : ℕ) (g : Grid) (y x : ℕ) (g2 : Grid)
    (hstep : ditherStep M w h g y x = some g2) :
    (x + 1 < w → g2 y (x + 1) = padd (g y (x + 1)) (psmul (7 / 16) (psub (g y x) (g2 y x)))) ∧
    (y + 1 < h → 1 ≤ x →
      g2 (y + 1) (x - 1) = padd (g (y + 1) (x - 1)) (psmul (3 / 16) (psub (g y x) (g2 y x)))) ∧
    (y + 1 < h → g2 (y + 1) x = padd (g (y + 1) x) (psmul (5 / 16) (psub (g y x) (g2 y x)))) ∧
    (y + 1 < h → x + 1 < w →
      g2 (y + 1) (x + 1) = padd (g (y + 1) (x + 1)) (psmul (1 / 16) (psub (g y x) (g2 y x)))) ∧
    (∀ i j, ¬(i = y ∧ j = x) → ¬(i = y ∧ j = x + 1 ∧ x + 1 < w) →
      ¬(i = y + 1 ∧ j = x - 1 ∧ 1 ≤ x ∧ y + 1 < h) → ¬(i = y + 1 ∧ j = x ∧ y + 1 < h) →
      ¬(i = y + 1 ∧ j = x + 1 ∧ x + 1 < w ∧ y + 1 < h) → g2 i j = g i j) := by
  simp only [ditherStep] at hstep
  rcases Option.map_eq_some'.mp hstep with ⟨np, hnp, hg2⟩
  subst hg2
  have hyx :
      diffuseError w h (upd g y x np) y x (psub (g y x) np) 1 y x = np := by
    rw [diffuseError_frame (by omega) (by omega) (by omega) (by omega), upd_apply,
        if_pos ⟨rfl, rfl⟩]
  rw [hyx]
  refine ⟨?_, ?_, ?_, ?_, ?_⟩
  · intro hx
    rw [diffuseError_right hx, mul_one, upd_apply, if_neg (by omega)]
  · intro hy hx0
    rw [diffuseError_belowLeft hy hx0, mul_one, upd_apply, if_neg (by omega)]
  · intro hy
    rw [diffuseError_below hy, mul_one, upd_apply, if_neg (by omega)]
  · intro hy hx
    rw [diffuseError_belowRight hy hx, mul_one, upd_apply, if_neg (by omega)]
  · intro i j n0 n1 n2 n3 n4
    rw [diffuseError_frame n1 n2 n3 n4, upd_apply, if_neg n0]

theorem psmul_zero_pix (q : ℚ) : psmul q ((0 : ℚ), (0 : ℚ), (0 : ℚ)) = ((0 : ℚ), (0 : ℚ), (0 : ℚ)) := by
  simp [psmul]

theorem padd_zero_pix (a : Pix) : padd a ((0 : ℚ), (0 : ℚ), (0 : ℚ)) = a := by
  simp [padd]

theorem psub_self_pix (a : Pix) : psub a a = ((0 : ℚ), (0 : ℚ), (0 : ℚ)) := by
  simp [psub]

theorem upd_self_apply (g : Grid) (y x i j : ℕ) : upd g y x (g y x) i j = g i j := by
  rw [upd_apply]
  split_ifs with hc
  · obtain ⟨rfl, rfl⟩ := hc
    rfl
  · rfl

theorem diffuseError_zero {w h : ℕ} {g : Grid} {y x : ℕ} {s : ℚ} (i j : ℕ) :
    diffuseError w h g y x ((0 : ℚ), (0 : ℚ), (0 : ℚ)) s i j = g i j := by
  by_cases c1 : i = y ∧ j = x + 1 ∧ x + 1 < w
  · obtain ⟨h1, h2, h3⟩ := c1
    subst h1; subst h2
    rw [diffuseError_right h3, psmul_zero_pix, padd_zero_pix]
  · by_cases c2 : i = y + 1 ∧ j = x - 1 ∧ 1 ≤ x ∧ y + 1 < h
    · obtain ⟨h1, h2, h3, h4⟩ := c2
      subst h1; subst h2
      rw [diffuseError_belowLeft h4 h3, psmul_zero_pix, padd_zero_pix]
    · by_cases c3 : i = y + 1 ∧ j = x ∧ y + 1 < h
      · obtain ⟨h1, h2, h3⟩ := c3
        subst h1; subst h2
        rw [diffuseError_below h3, psmul_zero_pix, padd_zero_pix]
      · by_cases c4 : i = y + 1 ∧ j = x + 1 ∧ x + 1 < w ∧ y + 1 < h
        · obtain ⟨h1, h2, h3, h4⟩ := c4
          subst h1; subst h2
          rw [diffuseError_belowRight h4 h3, psmul_zero_pix, padd_zero_pix]
        · exact diffuseError_frame c1 c2 c3 c4

/-- A similarity-mapping lookup "miss" for a color key: the key is absent, or
present with an empty entry dict (both falsy in the sources). -/
def lookupMiss {α : Type} (M : String → Option (List (String × α))) (key : String) : Prop :=
  M key = none ∨ M key = some []

theorem replacePixel_miss {α : Type} [LinearOrder α]
    (M : String → Option (List (String × α))) (c : Rgb)
    (hm : lookupMiss M (rgbNatToHex c)) : replacePixel M c = some c := by
  rcases hm with h | h <;> simp [replacePixel, h]

theorem ditherStep_miss {α : Type} [LinearOrder α]
    (M : String → Option (List (String × α))) (w h : ℕ) (g : Grid) (y x : ℕ)
    (hm : lookupMiss M (rgb_to_hex (truncPix (g y x)))) :
    ∃ g2, ditherStep M w h g y x = some g2 ∧ ∀ i j, g2 i j = g i j := by
  have hstep : ditherStep M w h g y x =
      some (diffuseError w h (upd g y x (g y x)) y x (psub (g y x) (g y x)) 1) := by
    rcases hm with hh | hh <;> simp [ditherStep, hh]
  refine ⟨_, hstep, fun i j => ?_⟩
  rw [psub_self_pix, diffuseError_zero, upd_self_apply]

theorem enhancedStep_miss {α : Type} [LinearOrder α]
    (M : String → Option (List (String × α))) (edge : ℕ → ℕ → ℕ) (rand : ℕ → ℚ)
    (w h : ℕ) (st : Grid × ℕ) (y x : ℕ)
    (hm : lookupMiss M (rgb_to_hex (truncPix (st.1 y x)))) :
    ∃ st2, enhancedStep M edge rand w h st y x = some st2 ∧
      st2.2 = st.2 ∧ ∀ i j, st2.1 i j = st.1 i j := by
  have hstep : enhancedStep M edge rand w h st y x =
      some (diffuseError w h (upd st.1 y x (st.1 y x)) y x (psub (st.1 y x) (st.1 y x))
              (2 / 5 + (edge y x : ℚ) / 255 * (2 / 5)), st.2) := by
    rcases hm with hh | hh <;> simp [enhancedStep, hh]
  refine ⟨_, hstep, rfl, fun i j => ?_⟩
  show diffuseError w h (upd st.1 y x (st.1 y x)) y x (psub (st.1 y x) (st.1 y x)) _ i j = st.1 i j
  rw [psub_self_pix, diffuseError_zero, upd_self_apply]

/-- C3: in all three remap modes (direct, dithered, adaptive), a pixel whose
looked-up color has no similarity-index entry (key absent, or present with an
empty dict - both falsy) is passed through unchanged (in the dithering modes,
the accumulated value is kept and zero error is diffused, so the whole state
is unchanged), and the per-pixel operation returns a value rather than
failing on such a miss. -/
theorem C3_lookup_miss_passthrough :
    (∀ (α : Type) [LinearOrder α] (M : String → Option (List (String × α))) (c : Rgb),
      lookupMiss M (rgbNatToHex c) → replacePixel M c = some c) ∧
    (∀ (α : Type) [LinearOrder α] (M : String → Option (List (String × α))) (img out : Img)
      (y x : ℕ), replace_colors M img = some out → y < img.height → x < img.width →
      lookupMiss M (rgbNatToHex (img.pix y x)) → out.pix y x = img.pix y x) ∧
    (∀ (α : Type) [LinearOrder α] (M : String → Option (List (String × α))) (w h : ℕ)
      (g : Grid) (y x : ℕ), lookupMiss M (rgb_to_hex (truncPix (g y x))) →
      ∃ g2, ditherStep M w h g y x = some g2 ∧ ∀ i j, g2 i j = g i j) ∧
    (∀ (α : Type) [LinearOrder α] (M : String → Option (List (String × α)))
      (edge : ℕ → ℕ → ℕ) (rand : ℕ → ℚ) (w h : ℕ) (st : Grid × ℕ) (y x : ℕ),
      lookupMiss M (rgb_to_hex (truncPix (st.1 y x))) →
      ∃ st2, enhancedStep M edge rand w h st y x = some st2 ∧
        st2.2 = st.2 ∧ ∀ i j, st2.1 i j = st.1 i j) := by
  refine ⟨?_, ?_, ?_, ?_⟩
  · intro α _ M c hm
    exact replacePixel_miss M c hm
  · intro α _ M img out y x hout hy hx hm
    rw [replace_colors] at hout
    split_ifs at hout with hall
    · have hout2 := Option.some.inj hout
      rw [← hout2]
      show (replacePixel M (img.pix y x)).getD (img.pix y x) = img.pix y x
      rw [replacePixel_miss M _ hm]
      rfl
  · intro α _ M w h g y x hm
    exact ditherStep_miss M w h g y x hm
  · intro α _ M edge rand w h st y x hm
    exact enhancedStep_miss M edge rand w h st y x hm

/-- Witness for C3 at a concrete empty mapping and pixel: the direct per-pixel
operation passes the pixel through, and the dithering step leaves a concrete
grid unchanged. -/
theorem C3_lookup_miss_passthrough_witness :
    replacePixel (fun _ => (none : Option (List (String × ℚ)))) (1, 2, 3) = some (1, 2, 3) ∧
    ∃ g2, ditherStep (fun _ => (none : Option (List (String × ℚ)))) 2 2
        (fun _ _ => ((0 : ℚ), (0 : ℚ), (0 : ℚ))) 0 0 = some g2 ∧
      ∀ i j, g2 i j = (fun _ _ => ((0 : ℚ), (0 : ℚ), (0 : ℚ)) : Grid) i j := by
  refine ⟨?_, ?_⟩
  · exact C3_lookup_miss_passthrough.1 ℚ (fun _ => none) (1, 2, 3) (Or.inl rfl)
  · exact C3_lookup_miss_passthrough.2.2.1 ℚ (fun _ => none) 2 2 _ 0 0 (Or.inl rfl)

/-- C4: in dithered mode, the per-pixel quantization error (accumulated value
minus chosen value) is distributed 7/16 to the right neighbor, 3/16 to
below-left, 5/16 to below, 1/16 to below-right; neighbors outside the image
bounds are skipped and every other cell is untouched (no wraparound); channel
values are clamped to [0, 255] only when the output image is produced from the
final accumulator, never during accumulation; and the shin_enzin.py dithering
step (sorted-first selection) computes exactly the same step. -/
theorem C4_floyd_steinberg_error_distribution :
    (∀ (α : Type) [LinearOrder α] (M : String → Option (List (String × α))) (w h : ℕ)
      (g : Grid) (y x : ℕ) (g2 : Grid), ditherStep M w h g y x = some g2 →
      (x + 1 < w → g2 y (x + 1) = padd (g y (x + 1)) (psmul (7 / 16) (psub (g y x) (g2 y x)))) ∧
      (y + 1 < h → 1 ≤ x →
        g2 (y + 1) (x - 1) = padd (g (y + 1) (x - 1)) (psmul (3 / 16) (psub (g y x) (g2 y x)))) ∧
      (y + 1 < h → g2 (y + 1) x = padd (g (y + 1) x) (psmul (5 / 16) (psub (g y x) (g2 y x)))) ∧
      (y + 1 < h → x + 1 < w →
        g2 (y + 1) (x + 1) = padd (g (y + 1) (x + 1)) (psmul (1 / 16) (psub (g y x) (g2 y x)))) ∧
      (∀ i j, ¬(i = y ∧ j = x) → ¬(i = y ∧ j = x + 1 ∧ x + 1 < w) →
        ¬(i = y + 1 ∧ j = x - 1 ∧ 1 ≤ x ∧ y + 1 < h) → ¬(i = y + 1 ∧ j = x ∧ y + 1 < h) →
        ¬(i = y + 1 ∧ j = x + 1 ∧ x + 1 < w ∧ y + 1 < h) → g2 i j = g i j)) ∧
    (∀ (α : Type) [LinearOrder α] (M : String → Option (List (String × α)))
      (blurPre blurPost : Img → Img) (img out : Img),
      replace_colors_with_dithering M blurPre blurPost img = some out →
      ∃ gf, ditherPass M (blurPre img).width (blurPre img).height
          (toFloatGrid (blurPre img)) = some gf ∧
        out = blurPost { width := (blurPre img).width, height := (blurPre img).height,
                         pix := fun y x => clampPix (gf y x) }) ∧
    (∀ (α : Type) [LinearOrder α] (M : String → Option (List (String × α))) (w h : ℕ)
      (g : Grid) (y x : ℕ), enzinDitherStep M w h g y x = ditherStep M w h g y x) := by
  refine ⟨?_, ?_, ?_⟩
  · intro α _ M w h g y x g2 hstep
    exact ditherStep_spec M w h g y x g2 hstep
  · intro α _ M bPre bPost img out hout
    simp only [replace_colors_with_dithering] at hout
    rcases Option.map_eq_some'.mp hout with ⟨gf, hgf, hout2⟩
    exact ⟨gf, hgf, hout2.symm⟩
  · intro α _ M w h g y x
    exact enzinDitherStep_eq_ditherStep M w h g y x

/-- Witness for C4 at a concrete mapping, grid and position. -/
theorem C4_floyd_steinberg_error_distribution_witness :
    ∃ g2, ditherStep (fun _ => (none : Option (List (String × ℚ)))) 2 2
        (fun _ _ => ((0 : ℚ), (0 : ℚ), (0 : ℚ))) 0 0 = some g2 ∧
      (0 + 1 < 2 →
        g2 0 (0 + 1) = padd ((fun _ _ => ((0 : ℚ), (0 : ℚ), (0 : ℚ)) : Grid) 0 (0 + 1))
          (psmul (7 / 16)
            (psub ((fun _ _ => ((0 : ℚ), (0 : ℚ), (0 : ℚ)) : Grid) 0 0) (g2 0 0)))) := by
  have hstep : ditherStep (fun _ => (none : Option (List (String × ℚ)))) 2 2
      (fun _ _ => ((0 : ℚ), (0 : ℚ), (0 : ℚ))) 0 0 =
      some (diffuseError 2 2
        (upd (fun _ _ => ((0 : ℚ), (0 : ℚ), (0 : ℚ))) 0 0 ((0 : ℚ), (0 : ℚ), (0 : ℚ))) 0 0
        (psub ((0 : ℚ), (0 : ℚ), (0 : ℚ)) ((0 : ℚ), (0 : ℚ), (0 : ℚ))) 1) := rfl
  exact ⟨_, hstep, fun hx =>
    (C4_floyd_steinberg_error_distribution.1 ℚ (fun _ => none) 2 2 _ 0 0 _ hstep).1 hx⟩

/-- C10: each remap operation returns an image with the same width and height
as its input: directly for the direct pass and the blur-free improved pass,
and given that the external blur filters preserve dimensions (a PIL
GaussianBlur property) for the dithered and adaptive passes. -/
theorem C10_remap_preserves_dimensions :
    (∀ (α : Type) [LinearOrder α] (M : String → Option (List (String × α))) (img out : Img),
      replace_colors M img = some out → out.width = img.width ∧ out.height = img.height) ∧
    (∀ (α : Type) [LinearOrder α] (M : String → Option (List (String × α)))
      (blurPre blurPost : Img → Img) (img out : Img),
      (∀ i, (blurPre i).width = i.width ∧ (blurPre i).height = i.height) →
      (∀ i, (blurPost i).width = i.width ∧ (blurPost i).height = i.height) →
      replace_colors_with_dithering M blurPre blurPost img = some out →
      out.width = img.width ∧ out.height = img.height) ∧
    (∀ (α : Type) [LinearOrder α] (M : String → Option (List (String × α))) (img out : Img),
      enzin_in_nippon_colors_improved M img = some out →
      out.width = img.width ∧ out.height = img.height) ∧
    (∀ (α : Type) [LinearOrder α] (M : String → Option (List (String × α)))
      (edgeOf : Img → ℕ → ℕ → ℕ) (rand : ℕ → ℚ) (blurPre blurPost : Img → Img) (img out : Img),
      (∀ i, (blurPre i).width = i.width ∧ (blurPre i).height = i.height) →
      (∀ i, (blurPost i).width = i.width ∧ (blurPost i).height = i.height) →
      enzin_in_nippon_colors_enhanced M edgeOf rand blurPre blurPost img = some out →
      out.width = img.width ∧ out.height = img.height) := by
  refine ⟨?_, ?_, ?_, ?_⟩
  · intro α _ M img out hout
    rw [replace_colors] at hout
    split_ifs at hout with hall
    · rw [← Option.some.inj hout]
      exact ⟨rfl, rfl⟩
  · intro α _ M bPre bPost img out hpre hpost hout
    simp only [replace_colors_with_dithering] at hout
    rcases Option.map_eq_some'.mp hout with ⟨gf, _, hout2⟩
    rw [← hout2]
    refine ⟨?_, ?_⟩
    · exact ((hpost _).1).trans (hpre img).1
    · exact ((hpost _).2).trans (hpre img).2
  · intro α _ M img out hout
    simp only [enzin_in_nippon_colors_improved] at hout
    rcases Option.map_eq_some'.mp hout with ⟨gf, _, hout2⟩
    rw [← hout2]
    exact ⟨rfl, rfl⟩
  · intro α _ M edgeOf rand bPre bPost img out hpre hpost hout
    simp only [enzin_in_nippon_colors_enhanced] at hout
    rcases Option.map_eq_some'.mp hout with ⟨st, _, hout2⟩
    rw [← hout2]
    refine ⟨?_, ?_⟩
    · exact ((hpost _).1).trans (hpre img).1
    · exact ((hpost _).2).trans (hpre img).2

/-! ## The significance ranker (`significant_colors`) -/

/-- Squared RGB distance `sum((a - b) ** 2 for a, b in zip(c, pixel_rgb))`,
the cheap assignment metric of `significant_colors` (deliberately not the
perceptual metric). -/
def sqDist (c p : Rgb) : ℤ :=
  ((c.1 : ℤ) - (p.1 : ℤ)) ^ 2 + ((c.2.1 : ℤ) - (p.2.1 : ℤ)) ^ 2 +
    ((c.2.2 : ℤ) - (p.2.2 : ℤ)) ^ 2

/-- Python `min(cs, key=f)` over a nonempty list: first element attaining the
minimal key. -/
def pyMinColorBy (f : Rgb → ℤ) (c0 : Rgb) (cs : List Rgb) : Rgb :=
  cs.foldl (fun acc x => if f x < f acc then x else acc) c0

/-- `min(colors, key=lambda c: sqDist c pixel)`: the dominant color a pixel is
assigned to; `none` models the `ValueError` of `min` on an empty list. -/
def closestDominant (colors : List Rgb) (p : Rgb) : Option Rgb :=
  match colors with
  | [] => none
  | c :: cs => some (pyMinColorBy (fun c0 => sqDist c0 p) c cs)

/-- Pixel positions (x, y) in the iteration order of `significant_colors`:
`for x in range(width): for y in range(height)`. -/
def pixelPositions (w h : ℕ) : List (ℕ × ℕ) :=
  (List.range w).flatMap fun x => (List.range h).map fun y => (x, y)

/-- The (x, y) positions assigned to dominant color `c`, in iteration order
(`pixel_map[x, y]` is `img.pix y x`). -/
def assignedPixels (img : Img) (colors : List Rgb) (c : Rgb) : List (ℕ × ℕ) :=
  (pixelPositions img.width img.height).filter fun p =>
    closestDominant colors (img.pix p.2 p.1) = some c

/-- The saturation component of `colorsys.rgb_to_hls` on [0, 1] channels. -/
def rgb_to_hls_s (r g b : ℚ) : ℚ :=
  let maxc := max r (max g b)
  let minc := min r (min g b)
  if minc = maxc then 0
  else if (minc + maxc) / 2 ≤ 1 / 2 then (maxc - minc) / (maxc + minc)
  else (maxc - minc) / (2 - maxc - minc)

/-- HSL saturation of a color, channels normalized by 255 as in the source. -/
def saturationOf (c : Rgb) : ℚ :=
  rgb_to_hls_s ((c.1 : ℚ) / 255) ((c.2.1 : ℚ) / 255) ((c.2.2 : ℚ) / 255)

/-- Position score: 1 minus the normalized distance of the assigned pixels'
centroid from the image center (0 when no pixel is assigned). -/
noncomputable def positionScore (img : Img) (colors : List Rgb) (c : Rgb) : ℝ :=
  let ps := assignedPixels img colors c
  if ps = [] then 0
  else
    let cx : ℝ := (img.width : ℝ) / 2
    let cy : ℝ := (img.height : ℝ) / 2
    let avgx : ℝ := ((ps.map fun p => (p.1 : ℝ)).sum) / (ps.length : ℝ)
    let avgy : ℝ := ((ps.map fun p => (p.2 : ℝ)).sum) / (ps.length : ℝ)
    1 - Real.sqrt ((avgx - cx) ^ 2 + (avgy - cy) ^ 2) / Real.sqrt (cx ^ 2 + cy ^ 2)

/-- The combined significance score with the fixed weights 0.5, 0.3, 0.2. -/
noncomputable def significanceScore (img : Img) (colors : List Rgb) (c : Rgb) : ℝ :=
  0.5 * (((assignedPixels img colors c).length : ℝ) / ((img.width * img.height : ℕ) : ℝ)) +
    0.3 * (saturationOf c : ℝ) + 0.2 * positionScore img colors c

/-- Iteration order of the `color_assignments` dict: first occurrence of each
color in the dominant list (re-initialization of a duplicate key keeps its
original position). -/
def pyDictKeys (colors : List Rgb) : List Rgb :=
  colors.foldl (fun acc c => if c ∈ acc then acc else acc ++ [c]) []

/-- The unsorted `color_scores` list: one `(score, hex)` entry per dict key
with a nonzero pixel count. -/
noncomputable def colorScoresList (img : Img) (colors : List Rgb) : List (ℝ × String) :=
  (pyDictKeys colors).filterMap fun c =>
    if (assignedPixels img colors c).length = 0 then none
    else some (significanceScore img colors c, rgbNatToHex c)

/-- Stable insertion for descending sort on the first component. -/
noncomputable def insertByFstDesc (x : ℝ × String) :
    List (ℝ × String) → List (ℝ × String)
  | [] => [x]
  | y :: ys => if y.1 ≤ x.1 then x :: y :: ys else y :: insertByFstDesc x ys

/-- Python `list.sort(key=lambda item: item[0], reverse=True)`: a stable
descending sort on the score. -/
noncomputable def sortByFstDesc : List (ℝ × String) → List (ℝ × String)
  | [] => []
  | x :: xs => insertByFstDesc x (sortByFstDesc xs)

/-- `significant_colors` from eizins_nippon_colors.py: assign every pixel to
its nearest dominant color by squared RGB distance, score each dominant color
with a nonzero count by `0.5 * area + 0.3 * saturation + 0.2 * position`, and
sort descending by score.  `none` models the `ValueError` raised by `min` when
the dominant list is empty but pixels exist. -/
noncomputable def significant_colors (img : Img) (colors : List Rgb) :
    Option (List (ℝ × String)) :=
  if colors = [] ∧ 0 < img.width * img.height then none
  else some (sortByFstDesc (colorScoresList img colors))

theorem pyDictKeys_aux (l : List Rgb) : ∀ acc : List Rgb,
    (∀ a ∈ l, a ∉ acc) → l.Nodup →
    l.foldl (fun acc c => if c ∈ acc then acc else acc ++ [c]) acc = acc ++ l := by
  induction l with
  | nil => intro acc _ _; simp
  | cons c cs ih =>
    intro acc hna hnd
    rw [List.foldl_cons, if_neg (hna c (List.mem_cons_self c cs))]
    rw [ih (acc ++ [c]) ?_ (List.nodup_cons.mp hnd).2]
    · simp
    · intro a ha hmem
      rcases List.mem_append.mp hmem with hmem2 | hmem2
      · exact hna a (List.mem_cons_of_mem c ha) hmem2
      · rw [List.mem_singleton] at hmem2
        subst hmem2
        exact (List.nodup_cons.mp hnd).1 ha

theorem pyDictKeys_of_nodup {l : List Rgb} (h : l.Nodup) : pyDictKeys l = l := by
  have hx := pyDictKeys_aux l [] (by simp) h
  simpa [pyDictKeys] using hx

theorem insertByFstDesc_perm (x : ℝ × String) (l : List (ℝ × String)) :
    (insertByFstDesc x l).Perm (x :: l) := by
  induction l with
  | nil => exact List.Perm.refl _
  | cons y ys ih =>
    rw [insertByFstDesc]
    split_ifs
    · exact List.Perm.refl _
    · exact (ih.cons y).trans (List.Perm.swap x y ys)

theorem sortByFstDesc_perm (l : List (ℝ × String)) : (sortByFstDesc l).Perm l := by
  induction l with
  | nil => exact List.Perm.refl _
  | cons x xs ih =>
    rw [sortByFstDesc]
    exact (insertByFstDesc_perm x (sortByFstDesc xs)).trans (ih.cons x)

theorem pixelPositions_length (w h : ℕ) : (pixelPositions w h).length = w * h := by
  rw [pixelPositions, List.length_flatMap]
  have hmap : (List.range w).map (List.length ∘ fun x => (List.range h).map fun y => (x, y)) =
      (List.range w).map fun _ => h := by
    apply List.map_congr_left
    intro a _
    show ((List.range h).map fun y => (a, y)).length = h
    rw [List.length_map, List.length_range]
  rw [hmap, List.map_const', List.sum_replicate, List.length_range, smul_eq_mul]

theorem assignedPixels_const (w h : ℕ) (c : Rgb) :
    assignedPixels { width := w, height := h, pix := fun _ _ => c } [c] c =
      pixelPositions w h := by
  rw [assignedPixels]
  apply List.filter_eq_self.mpr
  intro p _
  simp [closestDominant, pyMinColorBy]

/-- C6: every dominant color assigned at least one pixel appears in the
output of `significant_colors` with score
`0.5 * area_proportion + 0.3 * HSL_saturation + 0.2 * position_score`;
for a single-color image (one dominant color covering 100% of the area) the
output is exactly one entry with score
`0.5 * 1 + 0.3 * saturation(color) + 0.2 * position_score`. -/
theorem C6_significance_score_formula :
    (∀ (img : Img) (colors : List Rgb) (res : List (ℝ × String)) (c : Rgb),
      colors.Nodup → significant_colors img colors = some res → c ∈ colors →
      0 < (assignedPixels img colors c).length →
      (0.5 * (((assignedPixels img colors c).length : ℝ) /
          ((img.width * img.height : ℕ) : ℝ)) +
         0.3 * (saturationOf c : ℝ) + 0.2 * positionScore img colors c,
       rgbNatToHex c) ∈ res) ∧
    (∀ (w h : ℕ) (c : Rgb), 0 < w → 0 < h →
      significant_colors { width := w, height := h, pix := fun _ _ => c } [c] =
        some [(0.5 * 1 + 0.3 * (saturationOf c : ℝ) +
                 0.2 * positionScore { width := w, height := h, pix := fun _ _ => c } [c] c,
               rgbNatToHex c)]) := by
  constructor
  · intro img colors res c hnd hsc hc hcount
    rw [significant_colors] at hsc
    split_ifs at hsc with hcond
    have hres := Option.some.inj hsc
    rw [← hres]
    apply (sortByFstDesc_perm (colorScoresList img colors)).mem_iff.mpr
    rw [colorScoresList, pyDictKeys_of_nodup hnd]
    apply List.mem_filterMap.mpr
    refine ⟨c, hc, ?_⟩
    rw [if_neg (by omega)]
    rfl
  · intro w h c hw hh
    have hassign := assignedPixels_const w h c
    have hcount : (assignedPixels { width := w, height := h, pix := fun _ _ => c } [c] c).length
        = w * h := by rw [hassign, pixelPositions_length]
    have hwh : 0 < w * h := Nat.mul_pos hw hh
    rw [significant_colors, if_neg (by simp)]
    have hkeys : pyDictKeys [c] = [c] := rfl
    rw [colorScoresList, hkeys]
    have hne : ¬ ((assignedPixels { width := w, height := h, pix := fun _ _ => c } [c] c).length
        = 0) := by omega
    simp only [List.filterMap_cons, List.filterMap_nil, if_neg hne]
    show some [(significanceScore { width := w, height := h, pix := fun _ _ => c } [c] c,
        rgbNatToHex c)] = _
    have hscore : significanceScore { width := w, height := h, pix := fun _ _ => c } [c] c =
        0.5 * 1 + 0.3 * (saturationOf c : ℝ) +
          0.2 * positionScore { width := w, height := h, pix := fun _ _ => c } [c] c := by
      rw [significanceScore, hcount]
      have hz : ((w * h : ℕ) : ℝ) ≠ 0 := by
        exact_mod_cast Nat.pos_iff_ne_zero.mp hwh
      rw [div_self hz]
    rw [hscore]

/-- Witness for C6: the single-color instance at a concrete 1 x 1 black image. -/
theorem C6_significance_score_formula_witness :
    significant_colors { width := 1, height := 1, pix := fun _ _ => (0, 0, 0) } [(0, 0, 0)] =
      some [(0.5 * 1 + 0.3 * (saturationOf (0, 0, 0) : ℝ) +
               0.2 * positionScore { width := 1, height := 1, pix := fun _ _ => (0, 0, 0) }
                 [(0, 0, 0)] (0, 0, 0),
             rgbNatToHex (0, 0, 0))] :=
  C6_significance_score_formula.2 1 1 (0, 0, 0) (by norm_num) (by norm_num)

/-- Witness for C10 at a concrete mapping and 1 x 1 image. -/
theorem C10_remap_preserves_dimensions_witness :
    ∃ out, replace_colors (fun _ => (none : Option (List (String × ℚ))))
        { width := 1, height := 1, pix := fun _ _ => (7, 8, 9) } = some out ∧
      out.width = 1 ∧ out.height = 1 := by
  obtain ⟨out, hout⟩ : ∃ out, replace_colors (fun _ => (none : Option (List (String × ℚ))))
      { width := 1, height := 1, pix := fun _ _ => (7, 8, 9) } = some out := ⟨_, rfl⟩
  exact ⟨out, hout, C10_remap_preserves_dimensions.1 ℚ (fun _ => none) _ out hout⟩

/-! ## The perceptual distance pipeline, modelled from the spec

The repository computes perceptual distances through third-party libraries
(colormath in eizins_nippon_colors.color_distance, colour in
color_similarity.rgb_to_lab / delta_E); those implementations are not part of
src/, so the conversion chain and the CIEDE2000 formula are modelled from the
spec over the reals.
-/

/-- A Lab color (L, a, b), the derived value of the spec's data model. -/
abbrev Lab : Type := ℝ × ℝ × ℝ

/-- Modelled from the spec: the sRGB decoding gamma (component of the
"normalized -> linear sRGB" step of the missing library conversion chain). -/
noncomputable def gammaExpand (c : ℝ) : ℝ :=
  if c ≤ 0.04045 then c / 12.92 else ((c + 0.055) / 1.055) ^ (2.4 : ℝ)

/-- Modelled from the spec: the CIE Lab transfer function with the standard
constants 216/24389 and 24389/27 (part of the missing XYZ -> Lab step). -/
noncomputable def labF (t : ℝ) : ℝ :=
  if 216 / 24389 < t then t ^ ((1 : ℝ) / 3) else ((24389 / 27) * t + 16) / 116

/-- Modelled from the spec: sRGB (0-255 channels) -> XYZ (fixed D65/sRGB
matrix) -> CIE Lab (fixed D65 reference white (0.9505, 1, 1.089), the white
point of the matrix rows).  This is the library conversion chain
`sRGB_to_XYZ` / `XYZ_to_Lab` that is external to the repository. -/
noncomputable def toLab (c : Rgb) : Lab :=
  let r := gammaExpand ((c.1 : ℝ) / 255)
  let g := gammaExpand ((c.2.1 : ℝ) / 255)
  let b := gammaExpand ((c.2.2 : ℝ) / 255)
  let x := 0.4124 * r + 0.3576 * g + 0.1805 * b
  let y := 0.2126 * r + 0.7152 * g + 0.0722 * b
  let z := 0.0193 * r + 0.1192 * g + 0.9505 * b
  let fx := labF (x / 0.9505)
  let fy := labF y
  let fz := labF (z / 1.089)
  (116 * fy - 16, 500 * (fx - fy), 200 * (fy - fz))

/-- Chroma of an (a, b) pair. -/
noncomputable def chroma (a b : ℝ) : ℝ := Real.sqrt (a ^ 2 + b ^ 2)

/-- The CIEDE2000 G factor from the mean chroma. -/
noncomputable def gFactor (cb : ℝ) : ℝ :=
  0.5 * (1 - Real.sqrt (cb ^ 7 / (cb ^ 7 + 25 ^ 7)))

/-- Hue angle in degrees normalized to [0, 360):
`degrees(atan2(b, a)); += 360 if negative` (atan2 is `Complex.arg`). -/
noncomputable def hueDeg (a b : ℝ) : ℝ :=
  let d := Complex.arg ⟨a, b⟩ * 180 / Real.pi
  if d < 0 then d + 360 else d

/-- Degrees to radians. -/
noncomputable def rad (d : ℝ) : ℝ := d * Real.pi / 180

/-- The CIEDE2000 hue difference, folded into [-180, 180]. -/
noncomputable def deltaHue (h1 h2 : ℝ) : ℝ :=
  let d := h2 - h1
  if |d| ≤ 180 then d else if 180 < d then d - 360 else d + 360

/-- The CIEDE2000 mean hue. -/
noncomputable def avgHue (h1 h2 : ℝ) : ℝ :=
  if 180 < |h1 - h2| then (h1 + h2 + 360) / 2 else (h1 + h2) / 2

/-- The CIEDE2000 T factor. -/
noncomputable def tFactor (hb : ℝ) : ℝ :=
  1 - 0.17 * Real.cos (rad (hb - 30)) + 0.24 * Real.cos (rad (2 * hb)) +
    0.32 * Real.cos (rad (3 * hb + 6)) - 0.20 * Real.cos (rad (4 * hb - 63))

/-- The CIEDE2000 lightness weighting. -/
noncomputable def slFactor (lb : ℝ) : ℝ :=
  1 + 0.015 * (lb - 50) ^ 2 / Real.sqrt (20 + (lb - 50) ^ 2)

/-- Mean of the unprimed chromas of a Lab pair. -/
noncomputable def cbar (p q : Lab) : ℝ := (chroma p.2.1 p.2.2 + chroma q.2.1 q.2.2) / 2

noncomputable def gOf (p q : Lab) : ℝ := gFactor (cbar p q)

/-- The primed a component of the first color. -/
noncomputable def apFst (p q : Lab) : ℝ := (1 + gOf p q) * p.2.1

/-- The primed a component of the second color. -/
noncomputable def apSnd (p q : Lab) : ℝ := (1 + gOf p q) * q.2.1

noncomputable def cpFst (p q : Lab) : ℝ := chroma (apFst p q) p.2.2

noncomputable def cpSnd (p q : Lab) : ℝ := chroma (apSnd p q) q.2.2

noncomputable def hpFst (p q : Lab) : ℝ := hueDeg (apFst p q) p.2.2

noncomputable def hpSnd (p q : Lab) : ℝ := hueDeg (apSnd p q) q.2.2

noncomputable def dLp (p q : Lab) : ℝ := q.1 - p.1

noncomputable def dCp (p q : Lab) : ℝ := cpSnd p q - cpFst p q

noncomputable def dhSmall (p q : Lab) : ℝ := deltaHue (hpFst p q) (hpSnd p q)

noncomputable def dHp (p q : Lab) : ℝ :=
  2 * Real.sqrt (cpFst p q * cpSnd p q) * Real.sin (rad (dhSmall p q) / 2)

noncomputable def lbar (p q : Lab) : ℝ := (p.1 + q.1) / 2

noncomputable def cpbar (p q : Lab) : ℝ := (cpFst p q + cpSnd p q) / 2

noncomputable def hbar (p q : Lab) : ℝ := avgHue (hpFst p q) (hpSnd p q)

noncomputable def slOf (p q : Lab) : ℝ := slFactor (lbar p q)

noncomputable def scOf (p q : Lab) : ℝ := 1 + 0.045 * cpbar p q

noncomputable def shOf (p q : Lab) : ℝ := 1 + 0.015 * cpbar p q * tFactor (hbar p q)

noncomputable def rcOf (p q : Lab) : ℝ :=
  2 * Real.sqrt ((cpbar p q) ^ 7 / ((cpbar p q) ^ 7 + 25 ^ 7))

noncomputable def rtOf (p q : Lab) : ℝ :=
  -(Real.sin (rad (2 * (30 * Real.exp (-(((hbar p q - 275) / 25) ^ 2))))) * rcOf p q)

/-- Modelled from the spec: the CIEDE2000 perceptual color difference on Lab
colors (kL = kC = kH = 1), the formula computed by the external
`delta_e_cie2000` / `delta_E` library calls. -/
noncomputable def deltaE00 (p q : Lab) : ℝ :=
  Real.sqrt ((dLp p q / slOf p q) ^ 2 + (dCp p q / scOf p q) ^ 2 +
    (dHp p q / shOf p q) ^ 2 + rtOf p q * (dCp p q / scOf p q) * (dHp p q / shOf p q))

/-- Modelled from the spec: `color_distance` from eizins_nippon_colors.py -
hex strings to Lab via the conversion chain, then CIEDE2000 (the body of the
source function is entirely colormath library calls).  An unparseable hex
string is mapped to the zero triple; every call site in the claims supplies
valid 6-hex-digit strings. -/
noncomputable def labOfHex (s : String) : Lab :=
  match hex_to_rgb s with
  | some c => toLab c
  | none => toLab (0, 0, 0)

noncomputable def color_distance (h1 h2 : String) : ℝ :=
  deltaE00 (labOfHex h1) (labOfHex h2)

/-! ## The similarity index builder (`similarity_scores`) -/

/-- Python dict insertion `val[k] = v` on an insertion-ordered association
list: update in place if the key exists, else append. -/
def dictInsert {α : Type} (l : List (String × α)) (k : String) (v : α) :
    List (String × α) :=
  if l.any fun p => p.1 = k then l.map fun p => if p.1 = k then (k, v) else p
  else l ++ [(k, v)]

/-- `similarity_scores` from color_similarity.py, parameterized by the
distance callable `d` (the external `colour.delta_E` on the Lab conversions,
called as `d palette_color hex_color`): keep every palette color whose
distance is at most the threshold, keyed by palette color in insertion
order. -/
def similarity_scores {β : Type} [LinearOrder β] (d : String → String → β)
    (hex_color : String) (color_palettes : List String) (threshold : β) :
    List (String × β) :=
  color_palettes.foldl
    (fun val palette_color =>
      if d palette_color hex_color ≤ threshold then
        dictInsert val palette_color (d palette_color hex_color)
      else val) []

/-- A similarity index built from a source-color universe `S`, a palette and a
threshold with the modelled perceptual distance, as consumed by the remap
passes (an absent source color has no key; a source color with no palette
entry within threshold has an empty entry dict). -/
noncomputable def builtIndex (S : List String) (palette : List String) (t : ℝ) :
    String → Option (List (String × ℝ)) :=
  fun k => if k ∈ S then some (similarity_scores color_distance k palette t) else none

theorem dictInsert_mem {α : Type} {l : List (String × α)} {k : String} {v : α}
    {pr : String × α} (h : pr ∈ dictInsert l k v) : pr = (k, v) ∨ pr ∈ l := by
  rw [dictInsert] at h
  split_ifs at h with hc
  · rcases List.mem_map.mp h with ⟨p, hp, hpr⟩
    by_cases hk : p.1 = k
    · rw [if_pos hk] at hpr
      exact Or.inl hpr.symm
    · rw [if_neg hk] at hpr
      exact Or.inr (hpr ▸ hp)
  · rcases List.mem_append.mp h with h2 | h2
    · exact Or.inr h2
    · exact Or.inl (List.mem_singleton.mp h2)

theorem dictInsert_mem_self {α : Type} (l : List (String × α)) (k : String) (v : α) :
    (k, v) ∈ dictInsert l k v := by
  rw [dictInsert]
  split_ifs with hc
  · rcases List.any_eq_true.mp hc with ⟨p, hp, hpk⟩
    apply List.mem_map.mpr
    exact ⟨p, hp, by rw [if_pos (of_decide_eq_true hpk)]⟩
  · exact List.mem_append.mpr (Or.inr (List.mem_singleton.mpr rfl))

theorem dictInsert_mem_preserve {α : Type} {l : List (String × α)} {k : String} {v : α}
    {pr : String × α} (h : pr ∈ l) (hne : pr.1 ≠ k) : pr ∈ dictInsert l k v := by
  rw [dictInsert]
  split_ifs with hc
  · apply List.mem_map.mpr
    exact ⟨pr, h, by rw [if_neg hne]⟩
  · exact List.mem_append.mpr (Or.inl h)

theorem dictInsert_of_fresh {α : Type} {l : List (String × α)} {k : String} (v : α)
    (h : ∀ pr ∈ l, pr.1 ≠ k) : dictInsert l k v = l ++ [(k, v)] := by
  rw [dictInsert, if_neg]
  intro hc
  rcases List.any_eq_true.mp hc with ⟨p, hp, hpk⟩
  exact h p hp (of_decide_eq_true hpk)

/-- Soundness of the index entries: every retained pair stores the distance of
its palette color to the source color, that distance is within the threshold,
and the key comes from the palette. -/
theorem similarity_scores_sound {β : Type} [LinearOrder β] (d : String → String → β)
    (c : String) (P : List String) (t : β) :
    ∀ pr ∈ similarity_scores d c P t, pr.2 = d pr.1 c ∧ pr.2 ≤ t ∧ pr.1 ∈ P := by
  have haux : ∀ (P0 : List String) (acc : List (String × β)),
      ∀ pr ∈ P0.foldl (fun val p =>
        if d p c ≤ t then dictInsert val p (d p c) else val) acc,
      pr ∈ acc ∨ (pr.2 = d pr.1 c ∧ pr.2 ≤ t ∧ pr.1 ∈ P0) := by
    intro P0
    induction P0 with
    | nil => intro acc pr hpr; exact Or.inl hpr
    | cons q Ps ih =>
      intro acc pr hpr
      rw [List.foldl_cons] at hpr
      rcases ih _ pr hpr with h | h
      · split_ifs at h with hc
        · rcases dictInsert_mem h with h2 | h2
          · right
            rw [h2]
            exact ⟨rfl, hc, List.mem_cons_self q Ps⟩
          · exact Or.inl h2
        · exact Or.inl h
      · exact Or.inr ⟨h.1, h.2.1, List.mem_cons_of_mem q h.2.2⟩
  intro pr hpr
  rcases haux P [] pr hpr with h | h
  · exact absurd h (List.not_mem_nil pr)
  · exact h

/-- Completeness: every palette color within the threshold appears with its
distance. -/
theorem similarity_scores_complete {β : Type} [LinearOrder β] (d : String → String → β)
    (c : String) (P : List String) (t : β) {p : String} (hp : p ∈ P)
    (hd : d p c ≤ t) : (p, d p c) ∈ similarity_scores d c P t := by
  have hkeep : ∀ (P0 : List String) (acc : List (String × β)), (p, d p c) ∈ acc →
      (p, d p c) ∈ P0.foldl (fun val q =>
        if d q c ≤ t then dictInsert val q (d q c) else val) acc := by
    intro P0
    induction P0 with
    | nil => intro acc h; exact h
    | cons q Ps ih =>
      intro acc h
      rw [List.foldl_cons]
      apply ih
      split_ifs with hc
      · by_cases hqp : p = q
        · subst hqp
          exact dictInsert_mem_self acc p (d p c)
        · exact dictInsert_mem_preserve h hqp
      · exact h
  have haux : ∀ (P0 : List String) (acc : List (String × β)), p ∈ P0 →
      (p, d p c) ∈ P0.foldl (fun val q =>
        if d q c ≤ t then dictInsert val q (d q c) else val) acc := by
    intro P0
    induction P0 with
    | nil => intro acc h; exact absurd h (List.not_mem_nil p)
    | cons q Ps ih =>
      intro acc h
      rw [List.foldl_cons]
      rcases List.mem_cons.mp h with rfl | h2
      · apply hkeep
        rw [if_pos hd]
        exact dictInsert_mem_self acc p (d p c)
      · exact ih _ h2
  exact haux P [] hp

/-- For a duplicate-free palette the index is exactly the palette filtered by
the threshold, in palette order. -/
theorem similarity_scores_eq_filterMap {β : Type} [LinearOrder β]
    (d : String → String → β) (c : String) {P : List String} (t : β)
    (hnd : P.Nodup) :
    similarity_scores d c P t =
      P.filterMap fun p => if d p c ≤ t then some (p, d p c) else none := by
  have haux : ∀ (P0 : List String), P0.Nodup → ∀ acc : List (String × β),
      (∀ pr ∈ acc, pr.1 ∉ P0) →
      P0.foldl (fun val p => if d p c ≤ t then dictInsert val p (d p c) else val) acc =
        acc ++ P0.filterMap fun p => if d p c ≤ t then some (p, d p c) else none := by
    intro P0
    induction P0 with
    | nil => intro _ acc _; simp
    | cons q Ps ih =>
      intro hnd0 acc hacc
      rw [List.foldl_cons, List.filterMap_cons]
      split_ifs with hc
      · rw [dictInsert_of_fresh _ fun pr hpr =>
          fun he => hacc pr hpr (he ▸ List.mem_cons_self q Ps)]
        rw [ih (List.nodup_cons.mp hnd0).2 (acc ++ [(q, d q c)]) ?_]
        · simp
        · intro pr hpr hmem
          rcases List.mem_append.mp hpr with h2 | h2
          · exact hacc pr h2 (List.mem_cons_of_mem q hmem)
          · rw [List.mem_singleton] at h2
            subst h2
            exact (List.nodup_cons.mp hnd0).1 hmem
      · rw [ih (List.nodup_cons.mp hnd0).2 acc
          fun pr hpr hmem => hacc pr hpr (List.mem_cons_of_mem q hmem)]
  have hmain := haux P hnd [] (by simp)
  simpa [similarity_scores] using hmain

/-- The retained keys are the thresholded palette colors in palette order. -/
theorem similarity_scores_keys {β : Type} [LinearOrder β]
    (d : String → String → β) (c : String) {P : List String} (t : β)
    (hnd : P.Nodup) :
    (similarity_scores d c P t).map Prod.fst = P.filter fun p => d p c ≤ t := by
  rw [similarity_scores_eq_filterMap d c t hnd]
  clear hnd
  induction P with
  | nil => rfl
  | cons q Ps ih =>
    by_cases hc : d q c ≤ t
    · simp [List.filterMap_cons, List.filter_cons, hc, ih]
    · simp [List.filterMap_cons, List.filter_cons, hc, ih]

/-! ## Basic facts about the modelled CIEDE2000 -/

theorem chroma_nonneg (a b : ℝ) : 0 ≤ chroma a b := Real.sqrt_nonneg _

theorem chroma_eq_zero_iff {a b : ℝ} : chroma a b = 0 ↔ a = 0 ∧ b = 0 := by
  rw [chroma, Real.sqrt_eq_zero']
  constructor
  · intro h
    constructor <;> nlinarith [sq_nonneg a, sq_nonneg b]
  · rintro ⟨rfl, rfl⟩
    norm_num

theorem deltaE00_nonneg (p q : Lab) : 0 ≤ deltaE00 p q := Real.sqrt_nonneg _

theorem slFactor_ge_one (lb : ℝ) : 1 ≤ slFactor lb := by
  rw [slFactor]
  have h1 : 0 ≤ 0.015 * (lb - 50) ^ 2 / Real.sqrt (20 + (lb - 50) ^ 2) :=
    div_nonneg (by positivity) (Real.sqrt_nonneg _)
  linarith

theorem slOf_pos (p q : Lab) : 0 < slOf p q :=
  lt_of_lt_of_le one_pos (slFactor_ge_one _)

theorem cpFst_nonneg (p q : Lab) : 0 ≤ cpFst p q := chroma_nonneg _ _

theorem cpSnd_nonneg (p q : Lab) : 0 ≤ cpSnd p q := chroma_nonneg _ _

theorem cpbar_nonneg (p q : Lab) : 0 ≤ cpbar p q := by
  rw [cpbar]
  have h1 := cpFst_nonneg p q
  have h2 := cpSnd_nonneg p q
  linarith

theorem scOf_ge_one (p q : Lab) : 1 ≤ scOf p q := by
  rw [scOf]
  have := cpbar_nonneg p q
  linarith

theorem scOf_pos (p q : Lab) : 0 < scOf p q := lt_of_lt_of_le one_pos (scOf_ge_one p q)

theorem tFactor_pos (hb : ℝ) : 0 < tFactor hb := by
  rw [tFactor]
  have h1 := Real.cos_le_one (rad (hb - 30))
  have h2 := Real.neg_one_le_cos (rad (hb - 30))
  have h3 := Real.cos_le_one (rad (2 * hb))
  have h4 := Real.neg_one_le_cos (rad (2 * hb))
  have h5 := Real.cos_le_one (rad (3 * hb + 6))
  have h6 := Real.neg_one_le_cos (rad (3 * hb + 6))
  have h7 := Real.cos_le_one (rad (4 * hb - 63))
  have h8 := Real.neg_one_le_cos (rad (4 * hb - 63))
  nlinarith

theorem shOf_ge_one (p q : Lab) : 1 ≤ shOf p q := by
  rw [shOf]
  have h1 := cpbar_nonneg p q
  have h2 := tFactor_pos (hbar p q)
  nlinarith

theorem shOf_pos (p q : Lab) : 0 < shOf p q := lt_of_lt_of_le one_pos (shOf_ge_one p q)

theorem rcOf_nonneg (p q : Lab) : 0 ≤ rcOf p q := by
  rw [rcOf]
  positivity

theorem rcOf_lt_two (p q : Lab) : rcOf p q < 2 := by
  rw [rcOf]
  have hu : (0 : ℝ) ≤ (cpbar p q) ^ 7 := pow_nonneg (cpbar_nonneg p q) 7
  have hc : (0 : ℝ) < 25 ^ 7 := by norm_num
  have hlt : (cpbar p q) ^ 7 / ((cpbar p q) ^ 7 + 25 ^ 7) < 1 :=
    (div_lt_one (by linarith)).mpr (by linarith)
  have hs : Real.sqrt ((cpbar p q) ^ 7 / ((cpbar p q) ^ 7 + 25 ^ 7)) < 1 := by
    rw [show (1 : ℝ) = Real.sqrt 1 by rw [Real.sqrt_one]]
    exact Real.sqrt_lt_sqrt (div_nonneg hu (by linarith)) hlt
  linarith

theorem rtOf_abs_lt_two (p q : Lab) : |rtOf p q| < 2 := by
  rw [rtOf, abs_neg, abs_mul]
  have h1 : |Real.sin (rad (2 * (30 * Real.exp (-(((hbar p q - 275) / 25) ^ 2)))))| ≤ 1 :=
    abs_le.mpr ⟨Real.neg_one_le_sin _, Real.sin_le_one _⟩
  have h2 : |rcOf p q| = rcOf p q := abs_of_nonneg (rcOf_nonneg p q)
  rw [h2]
  calc |Real.sin (rad (2 * (30 * Real.exp (-(((hbar p q - 275) / 25) ^ 2)))))| * rcOf p q
      ≤ 1 * rcOf p q := mul_le_mul_of_nonneg_right h1 (rcOf_nonneg p q)
    _ = rcOf p q := one_mul _
    _ < 2 := rcOf_lt_two p q

theorem rad_zero : rad 0 = 0 := by rw [rad]; ring

theorem rad_neg (x : ℝ) : rad (-x) = -rad x := by rw [rad, rad]; ring

theorem deltaHue_self (h : ℝ) : deltaHue h h = 0 := by
  rw [deltaHue]
  simp

theorem deltaE00_self (p : Lab) : deltaE00 p p = 0 := by
  have hL : dLp p p = 0 := sub_self _
  have hC : dCp p p = 0 := sub_self _
  have hH : dHp p p = 0 := by
    rw [dHp, dhSmall, hpFst, hpSnd, apFst, apSnd, deltaHue_self, rad_zero]
    norm_num
  rw [deltaE00, hL, hC, hH]
  norm_num

/-! ## Symmetry of the modelled CIEDE2000 -/

theorem cbar_comm (p q : Lab) : cbar q p = cbar p q := by
  rw [cbar, cbar, add_comm]

theorem gOf_comm (p q : Lab) : gOf q p = gOf p q := by
  rw [gOf, gOf, cbar_comm]

theorem apFst_swap (p q : Lab) : apFst q p = apSnd p q := by
  rw [apFst, apSnd, gOf_comm]

theorem apSnd_swap (p q : Lab) : apSnd q p = apFst p q := by
  rw [apSnd, apFst, gOf_comm]

theorem cpFst_swap (p q : Lab) : cpFst q p = cpSnd p q := by
  rw [cpFst, cpSnd, apFst_swap]

theorem cpSnd_swap (p q : Lab) : cpSnd q p = cpFst p q := by
  rw [cpSnd, cpFst, apSnd_swap]

theorem hpFst_swap (p q : Lab) : hpFst q p = hpSnd p q := by
  rw [hpFst, hpSnd, apFst_swap]

theorem hpSnd_swap (p q : Lab) : hpSnd q p = hpFst p q := by
  rw [hpSnd, hpFst, apSnd_swap]

theorem dLp_swap (p q : Lab) : dLp q p = -dLp p q := by
  rw [dLp, dLp]; ring

theorem dCp_swap (p q : Lab) : dCp q p = -dCp p q := by
  rw [dCp, dCp, cpFst_swap p q, cpSnd_swap p q]; ring

theorem deltaHue_antisymm (a b : ℝ) : deltaHue b a = -deltaHue a b := by
  rw [deltaHue, deltaHue]
  have he : a - b = -(b - a) := by ring
  rw [he, abs_neg]
  by_cases hab : |b - a| ≤ 180
  · rw [if_pos hab, if_pos hab]
  · rw [if_neg hab, if_neg hab]
    have habs : 180 < |b - a| := lt_of_not_le hab
    by_cases hd : 180 < b - a
    · rw [if_pos hd, if_neg (by linarith)]
      ring
    · have hd2 : b - a < -180 := by
        rcases lt_abs.mp habs with h | h
        · exact absurd h hd
        · linarith
      rw [if_neg hd, if_pos (by linarith)]
      ring

theorem avgHue_comm (a b : ℝ) : avgHue b a = avgHue a b := by
  rw [avgHue, avgHue, abs_sub_comm]
  split_ifs <;> ring

theorem dhSmall_swap (p q : Lab) : dhSmall q p = -dhSmall p q := by
  rw [dhSmall, dhSmall, hpFst_swap p q, hpSnd_swap p q, deltaHue_antisymm]

theorem dHp_swap (p q : Lab) : dHp q p = -dHp p q := by
  rw [dHp, dHp, cpFst_swap p q, cpSnd_swap p q, dhSmall_swap p q, rad_neg, neg_div,
    Real.sin_neg, mul_comm (cpSnd p q) (cpFst p q)]
  ring

theorem lbar_comm (p q : Lab) : lbar q p = lbar p q := by
  rw [lbar, lbar]; ring

theorem cpbar_comm (p q : Lab) : cpbar q p = cpbar p q := by
  rw [cpbar, cpbar, cpFst_swap p q, cpSnd_swap p q]; ring

theorem hbar_comm (p q : Lab) : hbar q p = hbar p q := by
  rw [hbar, hbar, hpFst_swap p q, hpSnd_swap p q, avgHue_comm]

theorem slOf_comm (p q : Lab) : slOf q p = slOf p q := by
  rw [slOf, slOf, lbar_comm]

theorem scOf_comm (p q : Lab) : scOf q p = scOf p q := by
  rw [scOf, scOf, cpbar_comm]

theorem shOf_comm (p q : Lab) : shOf q p = shOf p q := by
  rw [shOf, shOf, cpbar_comm, hbar_comm]

theorem rcOf_comm (p q : Lab) : rcOf q p = rcOf p q := by
  rw [rcOf, rcOf, cpbar_comm]

theorem rtOf_comm (p q : Lab) : rtOf q p = rtOf p q := by
  rw [rtOf, rtOf, hbar_comm, rcOf_comm]

theorem deltaE00_symm (p q : Lab) : deltaE00 q p = deltaE00 p q := by
  rw [deltaE00, deltaE00, dLp_swap p q, dCp_swap p q, dHp_swap p q, slOf_comm p q,
    scOf_comm p q, shOf_comm p q, rtOf_comm p q]
  congr 1
  ring

/-! ## CIEDE2000 is zero only on identical Lab colors -/

theorem gOf_nonneg (p q : Lab) : 0 ≤ gOf p q := by
  rw [gOf, gFactor]
  have hcb : 0 ≤ cbar p q := by
    rw [cbar]
    have h1 := chroma_nonneg p.2.1 p.2.2
    have h2 := chroma_nonneg q.2.1 q.2.2
    linarith
  have hpow : (0 : ℝ) ≤ (cbar p q) ^ 7 := pow_nonneg hcb 7
  have hc : (0 : ℝ) < 25 ^ 7 := by norm_num
  have hx : (cbar p q) ^ 7 / ((cbar p q) ^ 7 + 25 ^ 7) ≤ 1 :=
    div_le_one_of_le (by linarith) (by linarith)
  have hs : Real.sqrt ((cbar p q) ^ 7 / ((cbar p q) ^ 7 + 25 ^ 7)) ≤ 1 := by
    calc Real.sqrt ((cbar p q) ^ 7 / ((cbar p q) ^ 7 + 25 ^ 7)) ≤ Real.sqrt 1 :=
          Real.sqrt_le_sqrt hx
      _ = 1 := Real.sqrt_one
  linarith

theorem one_add_gOf_pos (p q : Lab) : 0 < 1 + gOf p q := by
  have := gOf_nonneg p q
  linarith

theorem chroma_eq_complex_abs (a b : ℝ) : chroma a b = Complex.abs ⟨a, b⟩ := by
  rw [chroma, Complex.abs_apply, Complex.normSq_mk]
  congr 1
  ring

theorem hueDeg_mem (a b : ℝ) : 0 ≤ hueDeg a b ∧ hueDeg a b < 360 := by
  rw [hueDeg]
  have h1 := Complex.neg_pi_lt_arg (⟨a, b⟩ : ℂ)
  have h2 := Complex.arg_le_pi (⟨a, b⟩ : ℂ)
  have hpi := Real.pi_pos
  have hd1 : -180 < Complex.arg ⟨a, b⟩ * 180 / Real.pi := by
    rw [lt_div_iff hpi]
    nlinarith
  have hd2 : Complex.arg ⟨a, b⟩ * 180 / Real.pi ≤ 180 := by
    rw [div_le_iff hpi]
    nlinarith
  split_ifs with hneg
  · constructor <;> linarith
  · constructor <;> linarith

theorem hueDeg_inj {a1 b1 a2 b2 : ℝ} (h : hueDeg a1 b1 = hueDeg a2 b2) :
    Complex.arg ⟨a1, b1⟩ = Complex.arg ⟨a2, b2⟩ := by
  have h1 := Complex.neg_pi_lt_arg (⟨a1, b1⟩ : ℂ)
  have h2 := Complex.arg_le_pi (⟨a1, b1⟩ : ℂ)
  have h3 := Complex.neg_pi_lt_arg (⟨a2, b2⟩ : ℂ)
  have h4 := Complex.arg_le_pi (⟨a2, b2⟩ : ℂ)
  have hpi := Real.pi_pos
  have hd1 : -180 < Complex.arg ⟨a1, b1⟩ * 180 / Real.pi := by
    rw [lt_div_iff hpi]; nlinarith
  have hd2 : Complex.arg ⟨a1, b1⟩ * 180 / Real.pi ≤ 180 := by
    rw [div_le_iff hpi]; nlinarith
  have hd3 : -180 < Complex.arg ⟨a2, b2⟩ * 180 / Real.pi := by
    rw [lt_div_iff hpi]; nlinarith
  have hd4 : Complex.arg ⟨a2, b2⟩ * 180 / Real.pi ≤ 180 := by
    rw [div_le_iff hpi]; nlinarith
  rw [hueDeg, hueDeg] at h
  have hdeq : Complex.arg ⟨a1, b1⟩ * 180 / Real.pi = Complex.arg ⟨a2, b2⟩ * 180 / Real.pi := by
    split_ifs at h with hc1 hc2 hc2 <;> linarith
  field_simp [Real.pi_ne_zero] at hdeq
  exact hdeq

theorem deltaHue_abs_le {h1 h2 : ℝ} (hb1 : 0 ≤ h1) (hb1' : h1 < 360) (hb2 : 0 ≤ h2)
    (hb2' : h2 < 360) : |deltaHue h1 h2| ≤ 180 := by
  rw [deltaHue]
  split_ifs with c1 c2
  · exact c1
  · rw [abs_le]
    constructor <;> linarith
  · have hlt : h2 - h1 < -180 := by
      rcases lt_abs.mp (lt_of_not_le c1) with hx | hx
      · exact absurd hx c2
      · linarith
    rw [abs_le]
    constructor <;> linarith

theorem deltaHue_eq_zero_inj {h1 h2 : ℝ} (hb1 : 0 ≤ h1) (hb1' : h1 < 360) (hb2 : 0 ≤ h2)
    (hb2' : h2 < 360) (h : deltaHue h1 h2 = 0) : h1 = h2 := by
  rw [deltaHue] at h
  split_ifs at h with c1 c2 <;> linarith

theorem deltaE00_eq_zero_imp {p q : Lab} (h : deltaE00 p q = 0) : p = q := by
  rw [deltaE00] at h
  have hr : (dLp p q / slOf p q) ^ 2 + (dCp p q / scOf p q) ^ 2 + (dHp p q / shOf p q) ^ 2 +
      rtOf p q * (dCp p q / scOf p q) * (dHp p q / shOf p q) ≤ 0 := Real.sqrt_eq_zero'.mp h
  have hR4 : rtOf p q ^ 2 < 4 := by
    have habs := rtOf_abs_lt_two p q
    nlinarith [sq_abs (rtOf p q), abs_nonneg (rtOf p q)]
  have hA2 : (dLp p q / slOf p q) ^ 2 ≤ 0 := by
    nlinarith [sq_nonneg (dCp p q / scOf p q + rtOf p q * (dHp p q / shOf p q) / 2),
      sq_nonneg (dHp p q / shOf p q), hR4]
  have hC2 : (dHp p q / shOf p q) ^ 2 ≤ 0 := by
    nlinarith [sq_nonneg (dCp p q / scOf p q + rtOf p q * (dHp p q / shOf p q) / 2),
      sq_nonneg (dLp p q / slOf p q), hR4]
  have hA0 : dLp p q / slOf p q = 0 :=
    pow_eq_zero_iff two_ne_zero |>.mp (le_antisymm hA2 (sq_nonneg _))
  have hC0 : dHp p q / shOf p q = 0 :=
    pow_eq_zero_iff two_ne_zero |>.mp (le_antisymm hC2 (sq_nonneg _))
  have hB2 : (dCp p q / scOf p q) ^ 2 ≤ 0 := by
    rw [hA0, hC0] at hr
    nlinarith [hr]
  have hB0 : dCp p q / scOf p q = 0 :=
    pow_eq_zero_iff two_ne_zero |>.mp (le_antisymm hB2 (sq_nonneg _))
  have hdL : dLp p q = 0 := by
    rcases div_eq_zero_iff.mp hA0 with h0 | h0
    · exact h0
    · exact absurd h0 (ne_of_gt (slOf_pos p q))
  have hdC : dCp p q = 0 := by
    rcases div_eq_zero_iff.mp hB0 with h0 | h0
    · exact h0
    · exact absurd h0 (ne_of_gt (scOf_pos p q))
  have hdH : dHp p q = 0 := by
    rcases div_eq_zero_iff.mp hC0 with h0 | h0
    · exact h0
    · exact absurd h0 (ne_of_gt (shOf_pos p q))
  have hL : p.1 = q.1 := by
    rw [dLp] at hdL
    linarith
  have hcp : cpFst p q = cpSnd p q := by
    rw [dCp] at hdC
    linarith
  rw [dHp] at hdH
  rcases mul_eq_zero.mp hdH with h2 | hsin
  · rcases mul_eq_zero.mp h2 with h3 | h4
    · norm_num at h3
    · have hprod : cpFst p q * cpSnd p q = 0 := by
        have hle := Real.sqrt_eq_zero'.mp h4
        have hge := mul_nonneg (cpFst_nonneg p q) (cpSnd_nonneg p q)
        linarith
      have hboth : cpFst p q = 0 ∧ cpSnd p q = 0 := by
        rcases mul_eq_zero.mp hprod with h5 | h5
        · exact ⟨h5, by rw [← hcp]; exact h5⟩
        · exact ⟨by rw [hcp]; exact h5, h5⟩
      have hp1 := chroma_eq_zero_iff.mp hboth.1
      have hq1 := chroma_eq_zero_iff.mp hboth.2
      have hpa : p.2.1 = 0 := by
        have hap := hp1.1
        rw [apFst] at hap
        rcases mul_eq_zero.mp hap with h6 | h6
        · exact absurd h6 (ne_of_gt (one_add_gOf_pos p q))
        · exact h6
      have hqa : q.2.1 = 0 := by
        have hap := hq1.1
        rw [apSnd] at hap
        rcases mul_eq_zero.mp hap with h6 | h6
        · exact absurd h6 (ne_of_gt (one_add_gOf_pos p q))
        · exact h6
      exact Prod.ext_iff.mpr ⟨hL, Prod.ext_iff.mpr
        ⟨by rw [hpa, hqa], by rw [hp1.2, hq1.2]⟩⟩
  · have hb1 := hueDeg_mem (apFst p q) p.2.2
    have hb2 := hueDeg_mem (apSnd p q) q.2.2
    have hdh_le : |dhSmall p q| ≤ 180 := by
      rw [dhSmall]
      exact deltaHue_abs_le hb1.1 hb1.2 hb2.1 hb2.2
    have hpi := Real.pi_pos
    have hx1 : -Real.pi < rad (dhSmall p q) / 2 := by
      rw [rad]
      rcases abs_le.mp hdh_le with ⟨hl, hu⟩
      nlinarith
    have hx2 : rad (dhSmall p q) / 2 < Real.pi := by
      rw [rad]
      rcases abs_le.mp hdh_le with ⟨hl, hu⟩
      nlinarith
    have hz := (Real.sin_eq_zero_iff_of_lt_of_lt hx1 hx2).mp hsin
    have hdh0 : dhSmall p q = 0 := by
      rw [rad] at hz
      field_simp [Real.pi_ne_zero] at hz
      rcases mul_eq_zero.mp hz with h0 | h0
      · exact h0
      · exact absurd h0 Real.pi_ne_zero
    have hhue : hpFst p q = hpSnd p q := by
      rw [dhSmall] at hdh0
      exact deltaHue_eq_zero_inj hb1.1 hb1.2 hb2.1 hb2.2 hdh0
    have harg : Complex.arg ⟨apFst p q, p.2.2⟩ = Complex.arg ⟨apSnd p q, q.2.2⟩ :=
      hueDeg_inj hhue
    have habs : Complex.abs ⟨apFst p q, p.2.2⟩ = Complex.abs ⟨apSnd p q, q.2.2⟩ := by
      rw [← chroma_eq_complex_abs, ← chroma_eq_complex_abs]
      exact hcp
    have hmk := Complex.ext_abs_arg habs harg
    have hre : apFst p q = apSnd p q := congrArg Complex.re hmk
    have him : p.2.2 = q.2.2 := congrArg Complex.im hmk
    have hpa : p.2.1 = q.2.1 := by
      rw [apFst, apSnd] at hre
      exact mul_left_cancel₀ (ne_of_gt (one_add_gOf_pos p q)) hre
    exact Prod.ext_iff.mpr ⟨hL, Prod.ext_iff.mpr ⟨hpa, him⟩⟩

theorem deltaE00_eq_zero_iff (p q : Lab) : deltaE00 p q = 0 ↔ p = q := by
  constructor
  · exact deltaE00_eq_zero_imp
  · rintro rfl
    exact deltaE00_self p

/-! ## Injectivity of the modelled sRGB -> Lab conversion -/

theorem gamma_boundary : (0.04045 : ℝ) / 12.92 < ((0.04045 + 0.055) / 1.055) ^ (2.4 : ℝ) := by
  have hq : ((0.04045 + 0.055) / 1.055 : ℝ) = 1909 / 21100 := by norm_num
  have hc : ((0.04045 : ℝ) / 12.92) = 809 / 258400 := by norm_num
  have h24 : (2.4 : ℝ) = (12 : ℝ) / 5 := by norm_num
  rw [hq, hc, h24]
  have hbase : (0 : ℝ) ≤ 1909 / 21100 := by norm_num
  have h5 : (((1909 : ℝ) / 21100) ^ ((12 : ℝ) / 5)) ^ (5 : ℕ) =
      ((1909 : ℝ) / 21100) ^ (12 : ℕ) := by
    rw [← Real.rpow_natCast (((1909 : ℝ) / 21100) ^ ((12 : ℝ) / 5)) 5,
      ← Real.rpow_mul hbase, ← Real.rpow_natCast ((1909 : ℝ) / 21100) 12]
    norm_num
  have hlt : ((809 : ℝ) / 258400) ^ (5 : ℕ) < (((1909 : ℝ) / 21100) ^ ((12 : ℝ) / 5)) ^ (5 : ℕ) := by
    rw [h5]
    norm_num
  exact lt_of_pow_lt_pow_left 5 (Real.rpow_nonneg hbase _) hlt

theorem gammaExpand_strictMono : StrictMono gammaExpand := by
  intro s t hst
  rw [gammaExpand, gammaExpand]
  by_cases hs : s ≤ 0.04045 <;> by_cases ht : t ≤ 0.04045
  · rw [if_pos hs, if_pos ht]
    gcongr
  · rw [if_pos hs, if_neg ht]
    push_neg at ht
    have key := gamma_boundary
    have h2 : ((0.04045 + 0.055) / 1.055 : ℝ) ^ (2.4 : ℝ) ≤ ((t + 0.055) / 1.055) ^ (2.4 : ℝ) := by
      apply Real.rpow_le_rpow (by norm_num) ?_ (by norm_num)
      gcongr
    have h1 : s / 12.92 ≤ (0.04045 : ℝ) / 12.92 := by
      gcongr
    linarith
  · exfalso
    push_neg at hs
    linarith
  · rw [if_neg hs, if_neg ht]
    push_neg at hs
    apply Real.rpow_lt_rpow ?_ ?_ (by norm_num)
    · positivity
    · gcongr

theorem labF_strictMono : StrictMono labF := by
  intro s t hst
  rw [labF, labF]
  by_cases hs : 216 / 24389 < s <;> by_cases ht : 216 / 24389 < t
  · rw [if_pos hs, if_pos ht]
    exact Real.rpow_lt_rpow (by linarith [lt_trans (show (0:ℝ) < 216 / 24389 by norm_num) hs])
      hst (by norm_num)
  · exfalso
    push_neg at ht
    linarith
  · rw [if_neg hs, if_pos ht]
    push_neg at hs
    have h1 : ((24389 : ℝ) / 27 * s + 16) / 116 ≤ ((24389 : ℝ) / 27 * (216 / 24389) + 16) / 116 := by
      gcongr
    have h2 : ((24389 : ℝ) / 27 * (216 / 24389) + 16) / 116 = 6 / 29 := by norm_num
    have h3 : ((216 : ℝ) / 24389) ^ ((1 : ℝ) / 3) = 6 / 29 := by
      have he : ((216 : ℝ) / 24389) = ((6 : ℝ) / 29) ^ (3 : ℕ) := by norm_num
      rw [he, ← Real.rpow_natCast ((6 : ℝ) / 29) 3, ← Real.rpow_mul (by norm_num)]
      norm_num
    have h4 : ((216 : ℝ) / 24389) ^ ((1 : ℝ) / 3) < t ^ ((1 : ℝ) / 3) :=
      Real.rpow_lt_rpow (by norm_num) ht (by norm_num)
    linarith
  · rw [if_neg hs, if_neg ht]
    have hm : (24389 : ℝ) / 27 * s < (24389 : ℝ) / 27 * t := by
      have hpos : (0 : ℝ) < 24389 / 27 := by norm_num
      exact mul_lt_mul_of_pos_left hst hpos
    gcongr

set_option maxHeartbeats 1000000 in
theorem toLab_inj {c1 c2 : Rgb} (h : toLab c1 = toLab c2) : c1 = c2 := by
  simp only [toLab, Prod.mk.injEq] at h
  obtain ⟨hL, ha, hb⟩ := h
  have hfy : labF (0.2126 * gammaExpand ((c1.1 : ℝ) / 255) +
      0.7152 * gammaExpand ((c1.2.1 : ℝ) / 255) + 0.0722 * gammaExpand ((c1.2.2 : ℝ) / 255)) =
      labF (0.2126 * gammaExpand ((c2.1 : ℝ) / 255) +
      0.7152 * gammaExpand ((c2.2.1 : ℝ) / 255) + 0.0722 * gammaExpand ((c2.2.2 : ℝ) / 255)) := by
    linarith
  have hfx : labF ((0.4124 * gammaExpand ((c1.1 : ℝ) / 255) +
      0.3576 * gammaExpand ((c1.2.1 : ℝ) / 255) + 0.1805 * gammaExpand ((c1.2.2 : ℝ) / 255)) /
        0.9505) =
      labF ((0.4124 * gammaExpand ((c2.1 : ℝ) / 255) +
      0.3576 * gammaExpand ((c2.2.1 : ℝ) / 255) + 0.1805 * gammaExpand ((c2.2.2 : ℝ) / 255)) /
        0.9505) := by
    linarith
  have hfz : labF ((0.0193 * gammaExpand ((c1.1 : ℝ) / 255) +
      0.1192 * gammaExpand ((c1.2.1 : ℝ) / 255) + 0.9505 * gammaExpand ((c1.2.2 : ℝ) / 255)) /
        1.089) =
      labF ((0.0193 * gammaExpand ((c2.1 : ℝ) / 255) +
      0.1192 * gammaExpand ((c2.2.1 : ℝ) / 255) + 0.9505 * gammaExpand ((c2.2.2 : ℝ) / 255)) /
        1.089) := by
    linarith
  have hy := labF_strictMono.injective hfy
  have hx0 := labF_strictMono.injective hfx
  have hz0 := labF_strictMono.injective hfz
  have hcancel : ∀ {a b c : ℝ}, c ≠ 0 → a / c = b / c → a = b := by
    intro a b c hc hdiv
    field_simp at hdiv
    exact hdiv
  have hx := hcancel (show (0.9505 : ℝ) ≠ 0 by norm_num) hx0
  have hz := hcancel (show (1.089 : ℝ) ≠ 0 by norm_num) hz0
  have hr : gammaExpand ((c1.1 : ℝ) / 255) = gammaExpand ((c2.1 : ℝ) / 255) := by linarith
  have hg : gammaExpand ((c1.2.1 : ℝ) / 255) = gammaExpand ((c2.2.1 : ℝ) / 255) := by linarith
  have hbl : gammaExpand ((c1.2.2 : ℝ) / 255) = gammaExpand ((c2.2.2 : ℝ) / 255) := by linarith
  have hr2 := hcancel (show (255 : ℝ) ≠ 0 by norm_num)
    (gammaExpand_strictMono.injective hr)
  have hg2 := hcancel (show (255 : ℝ) ≠ 0 by norm_num)
    (gammaExpand_strictMono.injective hg)
  have hb2 := hcancel (show (255 : ℝ) ≠ 0 by norm_num)
    (gammaExpand_strictMono.injective hbl)
  have hr3 : c1.1 = c2.1 := Nat.cast_injective hr2
  have hg3 : c1.2.1 = c2.2.1 := Nat.cast_injective hg2
  have hb3 : c1.2.2 = c2.2.2 := Nat.cast_injective hb2
  exact Prod.ext_iff.mpr ⟨hr3, Prod.ext_iff.mpr ⟨hg3, hb3⟩⟩

theorem labOfHex_rgbNatToHex {a : Rgb} (h1 : a.1 ≤ 255) (h2 : a.2.1 ≤ 255)
    (h3 : a.2.2 ≤ 255) : labOfHex (rgbNatToHex a) = toLab a := by
  have hra : hex_to_rgb (rgbNatToHex (a.1, a.2.1, a.2.2)) = some (a.1, a.2.1, a.2.2) :=
    hex_to_rgb_roundtrip a.1 a.2.1 a.2.2 h1 h2 h3
  rw [labOfHex, hra]

/-- C7: for all valid 24-bit colors a and b, the modelled `color_distance` is
nonnegative, symmetric, and zero exactly when a and b are the identical RGB
triple. -/
theorem C7_color_distance_metric (a b : Rgb)
    (ha1 : a.1 ≤ 255) (ha2 : a.2.1 ≤ 255) (ha3 : a.2.2 ≤ 255)
    (hb1 : b.1 ≤ 255) (hb2 : b.2.1 ≤ 255) (hb3 : b.2.2 ≤ 255) :
    0 ≤ color_distance (rgbNatToHex a) (rgbNatToHex b) ∧
    color_distance (rgbNatToHex a) (rgbNatToHex b) =
      color_distance (rgbNatToHex b) (rgbNatToHex a) ∧
    (color_distance (rgbNatToHex a) (rgbNatToHex b) = 0 ↔ a = b) := by
  have hla := labOfHex_rgbNatToHex ha1 ha2 ha3
  have hlb := labOfHex_rgbNatToHex hb1 hb2 hb3
  refine ⟨deltaE00_nonneg _ _, ?_, ?_⟩
  · rw [color_distance, color_distance]
    exact (deltaE00_symm _ _).symm
  · rw [color_distance, hla, hlb, deltaE00_eq_zero_iff]
    exact ⟨toLab_inj, congrArg toLab⟩

/-- Witness for C7 at the concrete colors (1, 2, 3) and (4, 5, 6). -/
theorem C7_color_distance_metric_witness :
    0 ≤ color_distance (rgbNatToHex (1, 2, 3)) (rgbNatToHex (4, 5, 6)) ∧
    color_distance (rgbNatToHex (1, 2, 3)) (rgbNatToHex (4, 5, 6)) =
      color_distance (rgbNatToHex (4, 5, 6)) (rgbNatToHex (1, 2, 3)) ∧
    (color_distance (rgbNatToHex (1, 2, 3)) (rgbNatToHex (4, 5, 6)) = 0 ↔
      ((1, 2, 3) : Rgb) = (4, 5, 6)) :=
  C7_color_distance_metric (1, 2, 3) (4, 5, 6) (by norm_num) (by norm_num) (by norm_num)
    (by norm_num) (by norm_num) (by norm_num)

/-! ## Gray colors: closed forms used to refute the sortedness of the index -/

theorem toLab_gray {v : ℕ} (hv : v ≤ 10) :
    toLab (v, v, v) = ((24389 / 27) * ((v : ℝ) / 255 / 12.92), 0, 0) := by
  have hvr : (v : ℝ) ≤ 10 := by exact_mod_cast hv
  have hgam : gammaExpand ((v : ℝ) / 255) = (v : ℝ) / 255 / 12.92 := by
    rw [gammaExpand, if_pos]
    rw [div_le_iff₀ (by norm_num : (0 : ℝ) < 255)]
    nlinarith
  have hsmall : ¬ (216 / 24389 < (v : ℝ) / 255 / 12.92) := by
    rw [not_lt, div_le_iff₀ (by norm_num : (0 : ℝ) < 12.92),
      div_le_iff₀ (by norm_num : (0 : ℝ) < 255)]
    nlinarith
  rw [toLab]
  simp only [hgam]
  have hx : (0.4124 * ((v : ℝ) / 255 / 12.92) + 0.3576 * ((v : ℝ) / 255 / 12.92) +
      0.1805 * ((v : ℝ) / 255 / 12.92)) / 0.9505 = (v : ℝ) / 255 / 12.92 := by
    field_simp
    ring
  have hy : (0.2126 : ℝ) * ((v : ℝ) / 255 / 12.92) + 0.7152 * ((v : ℝ) / 255 / 12.92) +
      0.0722 * ((v : ℝ) / 255 / 12.92) = (v : ℝ) / 255 / 12.92 := by ring
  have hz : (0.0193 * ((v : ℝ) / 255 / 12.92) + 0.1192 * ((v : ℝ) / 255 / 12.92) +
      0.9505 * ((v : ℝ) / 255 / 12.92)) / 1.089 = (v : ℝ) / 255 / 12.92 := by
    field_simp
    ring
  rw [hx, hy, hz]
  have hlab : labF ((v : ℝ) / 255 / 12.92) =
      ((24389 / 27) * ((v : ℝ) / 255 / 12.92) + 16) / 116 := by
    rw [labF, if_neg hsmall]
  rw [hlab]
  refine Prod.ext_iff.mpr ⟨?_, Prod.ext_iff.mpr ⟨?_, ?_⟩⟩
  · show 116 * (((24389 / 27) * ((v : ℝ) / 255 / 12.92) + 16) / 116) - 16 =
      (24389 / 27) * ((v : ℝ) / 255 / 12.92)
    field_simp
    ring
  · show 500 * (((24389 / 27) * ((v : ℝ) / 255 / 12.92) + 16) / 116 -
      ((24389 / 27) * ((v : ℝ) / 255 / 12.92) + 16) / 116) = 0
    ring
  · show 200 * (((24389 / 27) * ((v : ℝ) / 255 / 12.92) + 16) / 116 -
      ((24389 / 27) * ((v : ℝ) / 255 / 12.92) + 16) / 116) = 0
    ring

theorem deltaE00_gray (x y : ℝ) :
    deltaE00 (x, 0, 0) (y, 0, 0) = |y - x| / slFactor ((x + y) / 2) := by
  have hcp1 : cpFst ((x, 0, 0) : Lab) ((y, 0, 0) : Lab) = 0 := by
    rw [cpFst, apFst]
    show chroma ((1 + gOf _ _) * 0) 0 = 0
    rw [mul_zero]
    exact chroma_eq_zero_iff.mpr ⟨rfl, rfl⟩
  have hcp2 : cpSnd ((x, 0, 0) : Lab) ((y, 0, 0) : Lab) = 0 := by
    rw [cpSnd, apSnd]
    show chroma ((1 + gOf _ _) * 0) 0 = 0
    rw [mul_zero]
    exact chroma_eq_zero_iff.mpr ⟨rfl, rfl⟩
  have hdC : dCp ((x, 0, 0) : Lab) ((y, 0, 0) : Lab) = 0 := by
    rw [dCp, hcp1, hcp2, sub_zero]
  have hdH : dHp ((x, 0, 0) : Lab) ((y, 0, 0) : Lab) = 0 := by
    rw [dHp, hcp1, hcp2]
    norm_num
  rw [deltaE00, hdC, hdH]
  have hz : (0 : ℝ) / scOf ((x, 0, 0) : Lab) ((y, 0, 0) : Lab) = 0 := zero_div _
  have hz2 : (0 : ℝ) / shOf ((x, 0, 0) : Lab) ((y, 0, 0) : Lab) = 0 := zero_div _
  rw [hz, hz2]
  have hshape : (dLp ((x, 0, 0) : Lab) ((y, 0, 0) : Lab) /
      slOf ((x, 0, 0) : Lab) ((y, 0, 0) : Lab)) ^ 2 + (0 : ℝ) ^ 2 + (0 : ℝ) ^ 2 +
      rtOf ((x, 0, 0) : Lab) ((y, 0, 0) : Lab) * 0 * 0 =
      (dLp ((x, 0, 0) : Lab) ((y, 0, 0) : Lab) /
        slOf ((x, 0, 0) : Lab) ((y, 0, 0) : Lab)) ^ 2 := by ring
  rw [hshape, Real.sqrt_sq_eq_abs, abs_div,
    abs_of_pos (slOf_pos ((x, 0, 0) : Lab) ((y, 0, 0) : Lab))]
  rfl

/-- If `c² · (20 + (x−50)²)` dominates the square of the correction term, the
lightness weighting stays below `1 + c`. -/
theorem slFactor_lt_of_sq {x c : ℝ} (hc : 0 < c)
    (h : (0.015 * (x - 50) ^ 2) ^ 2 < c ^ 2 * (20 + (x - 50) ^ 2)) :
    slFactor x < 1 + c := by
  rw [slFactor]
  have hpos : (0 : ℝ) < 20 + (x - 50) ^ 2 := by positivity
  have hS2 : Real.sqrt (20 + (x - 50) ^ 2) ^ 2 = 20 + (x - 50) ^ 2 :=
    Real.sq_sqrt hpos.le
  have hSpos : 0 < Real.sqrt (20 + (x - 50) ^ 2) := Real.sqrt_pos.mpr hpos
  have hmp : (c * Real.sqrt (20 + (x - 50) ^ 2)) ^ 2 = c ^ 2 * (20 + (x - 50) ^ 2) := by
    rw [mul_pow, hS2]
  have key : (0.015 * (x - 50) ^ 2) ^ 2 < (c * Real.sqrt (20 + (x - 50) ^ 2)) ^ 2 := by
    rw [hmp]
    exact h
  have h2 : 0.015 * (x - 50) ^ 2 < c * Real.sqrt (20 + (x - 50) ^ 2) :=
    lt_of_pow_lt_pow_left 2 (by positivity) key
  have h3 : 0.015 * (x - 50) ^ 2 / Real.sqrt (20 + (x - 50) ^ 2) < c :=
    (div_lt_iff hSpos).mpr h2
  linarith

/-- Conversely, if the square of the correction term dominates, the lightness
weighting exceeds `1 + c`. -/
theorem lt_slFactor_of_sq {x c : ℝ} (_hc : 0 ≤ c)
    (h : c ^ 2 * (20 + (x - 50) ^ 2) < (0.015 * (x - 50) ^ 2) ^ 2) :
    1 + c < slFactor x := by
  rw [slFactor]
  have hpos : (0 : ℝ) < 20 + (x - 50) ^ 2 := by positivity
  have hS2 : Real.sqrt (20 + (x - 50) ^ 2) ^ 2 = 20 + (x - 50) ^ 2 :=
    Real.sq_sqrt hpos.le
  have hSpos : 0 < Real.sqrt (20 + (x - 50) ^ 2) := Real.sqrt_pos.mpr hpos
  have hmp : (c * Real.sqrt (20 + (x - 50) ^ 2)) ^ 2 = c ^ 2 * (20 + (x - 50) ^ 2) := by
    rw [mul_pow, hS2]
  have key : (c * Real.sqrt (20 + (x - 50) ^ 2)) ^ 2 < (0.015 * (x - 50) ^ 2) ^ 2 := by
    rw [hmp]
    exact h
  have h2 : c * Real.sqrt (20 + (x - 50) ^ 2) < 0.015 * (x - 50) ^ 2 :=
    lt_of_pow_lt_pow_left 2 (by positivity) key
  have h3 : c < 0.015 * (x - 50) ^ 2 / Real.sqrt (20 + (x - 50) ^ 2) :=
    (lt_div_iff hSpos).mpr h2
  linarith

theorem labOfHex_gray0 : labOfHex "000000" = ((0 : ℝ), 0, 0) := by
  have hp : hex_to_rgb "000000" = some (0, 0, 0) := by decide
  rw [labOfHex, hp]
  show toLab (0, 0, 0) = _
  rw [toLab_gray (by norm_num : (0 : ℕ) ≤ 10)]
  norm_num [Prod.ext_iff]

theorem labOfHex_gray5 : labOfHex "050505" = ((609725 : ℝ) / 444771, 0, 0) := by
  have hp : hex_to_rgb "050505" = some (5, 5, 5) := by decide
  rw [labOfHex, hp]
  show toLab (5, 5, 5) = _
  rw [toLab_gray (by norm_num : (5 : ℕ) ≤ 10)]
  norm_num [Prod.ext_iff]

theorem labOfHex_gray10 : labOfHex "0A0A0A" = ((1219450 : ℝ) / 444771, 0, 0) := by
  have hp : hex_to_rgb "0A0A0A" = some (10, 10, 10) := by decide
  rw [labOfHex, hp]
  show toLab (10, 10, 10) = _
  rw [toLab_gray (by norm_num : (10 : ℕ) ≤ 10)]
  norm_num [Prod.ext_iff]

theorem color_distance_gray10 : color_distance "0A0A0A" "000000" =
    (1219450 / 444771 : ℝ) / slFactor (1219450 / 444771 / 2) := by
  rw [color_distance, labOfHex_gray10, labOfHex_gray0, deltaE00_gray, add_zero,
    zero_sub, abs_neg, abs_of_nonneg (by norm_num : (0 : ℝ) ≤ 1219450 / 444771)]

theorem color_distance_gray5 : color_distance "050505" "000000" =
    (609725 / 444771 : ℝ) / slFactor (609725 / 444771 / 2) := by
  rw [color_distance, labOfHex_gray5, labOfHex_gray0, deltaE00_gray, add_zero,
    zero_sub, abs_neg, abs_of_nonneg (by norm_num : (0 : ℝ) ≤ 609725 / 444771)]

theorem gray10_dist_gt_one : 1 < color_distance "0A0A0A" "000000" := by
  rw [color_distance_gray10]
  have hlt : slFactor ((1219450 : ℝ) / 444771 / 2) < 1219450 / 444771 := by
    have h := slFactor_lt_of_sq
      (x := (1219450 : ℝ) / 444771 / 2) (c := (1219450 : ℝ) / 444771 - 1)
      (by norm_num) (by norm_num)
    linarith
  have hpos : 0 < slFactor ((1219450 : ℝ) / 444771 / 2) :=
    lt_of_lt_of_le one_pos (slFactor_ge_one _)
  exact (one_lt_div hpos).mpr hlt

theorem gray5_dist_lt_one : color_distance "050505" "000000" < 1 := by
  rw [color_distance_gray5]
  have hlt : (609725 : ℝ) / 444771 < slFactor ((609725 : ℝ) / 444771 / 2) := by
    have h := lt_slFactor_of_sq
      (x := (609725 : ℝ) / 444771 / 2) (c := (609725 : ℝ) / 444771 - 1)
      (by norm_num) (by norm_num)
    linarith
  have hpos : 0 < slFactor ((609725 : ℝ) / 444771 / 2) :=
    lt_of_lt_of_le one_pos (slFactor_ge_one _)
  exact (div_lt_one hpos).mpr hlt

theorem gray10_dist_le_15 : color_distance "0A0A0A" "000000" ≤ 15 := by
  rw [color_distance_gray10]
  have h1 : (1219450 / 444771 : ℝ) / slFactor (1219450 / 444771 / 2) ≤
      1219450 / 444771 :=
    div_le_self (by norm_num) (slFactor_ge_one _)
  have h2 : (1219450 / 444771 : ℝ) ≤ 15 := by norm_num
  linarith

theorem gray5_dist_le_15 : color_distance "050505" "000000" ≤ 15 := by
  rw [color_distance_gray5]
  have h1 : (609725 / 444771 : ℝ) / slFactor (609725 / 444771 / 2) ≤
      609725 / 444771 :=
    div_le_self (by norm_num) (slFactor_ge_one _)
  have h2 : (609725 / 444771 : ℝ) ≤ 15 := by norm_num
  linarith

/-- The index built for source color `"000000"` against the two-gray palette
`["0A0A0A", "050505"]` with threshold 15 retains both palette colors, in
palette order. -/
theorem similarity_scores_grays :
    similarity_scores color_distance "000000" ["0A0A0A", "050505"] 15 =
      [("0A0A0A", color_distance "0A0A0A" "000000"),
       ("050505", color_distance "050505" "000000")] := by
  rw [similarity_scores]
  simp only [List.foldl_cons, List.foldl_nil]
  rw [if_pos gray10_dist_le_15, if_pos gray5_dist_le_15]
  rfl

/-- C1 counterexample: the spec says the retained (palette color, distance)
pairs for a source color are ordered strictly ascending by distance, but
`similarity_scores` keys the dict in palette insertion order and never sorts.
For source color `"000000"`, palette `["0A0A0A", "050505"]` and threshold 15,
both entries are retained (distances ≈ 1.59 and ≈ 0.79, both ≤ 15) yet appear
in palette order, with the larger distance first, so the distance sequence is
not strictly ascending. -/
theorem C1_counterexample_not_sorted :
    ¬ List.Sorted (· < ·)
      ((similarity_scores color_distance "000000" ["0A0A0A", "050505"] 15).map
        Prod.snd) := by
  rw [similarity_scores_grays]
  simp only [List.map_cons, List.map_nil]
  intro hs
  have h12 : color_distance "0A0A0A" "000000" < color_distance "050505" "000000" :=
    (List.sorted_cons.mp hs).1 _ (List.mem_singleton.mpr rfl)
  linarith [gray10_dist_gt_one, gray5_dist_lt_one]

/-- C1 amended: every retained pair of the similarity index stores the
distance from its palette color to the source color and that distance is at
most the threshold; but the pairs are kept in palette insertion order — for a
duplicate-free palette the retained keys are exactly the palette colors within
threshold, in palette order — not sorted ascending by distance. -/
theorem C1_amended_threshold_and_palette_order (c : String) (P : List String)
    (t : ℝ) (hnd : P.Nodup) :
    (∀ pr ∈ similarity_scores color_distance c P t,
        pr.2 = color_distance pr.1 c ∧ pr.2 ≤ t ∧ pr.1 ∈ P) ∧
    (similarity_scores color_distance c P t).map Prod.fst =
      P.filter fun p => color_distance p c ≤ t :=
  ⟨similarity_scores_sound color_distance c P t,
   similarity_scores_keys color_distance c t hnd⟩

theorem C1_amended_threshold_and_palette_order_witness :
    (similarity_scores color_distance "000000" ["0A0A0A", "050505"] 15).map
        Prod.fst =
      ["0A0A0A", "050505"].filter fun p => color_distance p "000000" ≤ 15 :=
  (C1_amended_threshold_and_palette_order "000000" ["0A0A0A", "050505"] 15
    (by decide)).2

/-! ## Idempotence of the direct remap over a built similarity index -/

theorem char_le_toNat {c d : Char} (h : c ≤ d) : c.toNat ≤ d.toNat :=
  BitVec.le_def.mp (UInt32.le_def.mp (Char.le_def.mp h))

theorem hexCharVal_lt {c : Char} {v : ℕ} (h : hexCharVal c = some v) : v < 16 := by
  rw [hexCharVal] at h
  split_ifs at h with h1 h2 h3
  · have hb := char_le_toNat h1.2
    have hv := Option.some.inj h
    have h9 : ('9' : Char).toNat = 57 := rfl
    rw [h9] at hb
    have h0 : ('0' : Char).toNat = 48 := rfl
    rw [h0] at hv
    omega
  · have hb := char_le_toNat h2.2
    have hv := Option.some.inj h
    have hf : ('f' : Char).toNat = 102 := rfl
    rw [hf] at hb
    have ha' : ('a' : Char).toNat = 97 := rfl
    rw [ha'] at hv
    omega
  · have hb := char_le_toNat h3.2
    have hv := Option.some.inj h
    have hf : ('F' : Char).toNat = 70 := rfl
    rw [hf] at hb
    have ha' : ('A' : Char).toNat = 65 := rfl
    rw [ha'] at hv
    omega

theorem hexFold_none (l : List Char) :
    l.foldl (fun acc c => acc.bind fun a => (hexCharVal c).map fun v => 16 * a + v)
      none = none := by
  induction l with
  | nil => rfl
  | cons c cs ih =>
    rw [List.foldl_cons]
    exact ih

theorem hexFold_lt (l : List Char) : ∀ a n : ℕ,
    l.foldl (fun acc c => acc.bind fun a => (hexCharVal c).map fun v => 16 * a + v)
      (some a) = some n → n < (a + 1) * 16 ^ l.length := by
  induction l with
  | nil =>
    intro a n h
    have hv := Option.some.inj h
    simp only [List.length_nil, pow_zero, mul_one]
    omega
  | cons c cs ih =>
    intro a n h
    rw [List.foldl_cons] at h
    cases hv : hexCharVal c with
    | none =>
      have hstep : ((some a).bind fun a => (hexCharVal c).map fun v => 16 * a + v) =
          (none : Option ℕ) := by
        simp [hv]
      rw [hstep, hexFold_none] at h
      exact absurd h (by simp)
    | some v =>
      have hstep : ((some a).bind fun a => (hexCharVal c).map fun v => 16 * a + v) =
          some (16 * a + v) := by
        simp [hv]
      rw [hstep] at h
      have hb := ih (16 * a + v) n h
      have hv16 := hexCharVal_lt hv
      have hmul : 16 * a + v + 1 ≤ (a + 1) * 16 := by omega
      calc n < (16 * a + v + 1) * 16 ^ cs.length := hb
        _ ≤ (a + 1) * 16 * 16 ^ cs.length := Nat.mul_le_mul_right _ hmul
        _ = (a + 1) * 16 ^ (c :: cs).length := by
            rw [List.length_cons, pow_succ]
            ring

theorem parseHexNat_lt {l : List Char} {n : ℕ} (h : parseHexNat l = some n) :
    n < 16 ^ l.length := by
  rw [parseHexNat] at h
  split_ifs at h with hemp
  have hb := hexFold_lt l 0 n h
  simpa using hb

theorem parseHexNat_slice_le {l : List Char} {i j n : ℕ} (hij : j - i ≤ 2)
    (h : parseHexNat (pySlice l i j) = some n) : n ≤ 255 := by
  have hlt := parseHexNat_lt h
  have h1 : (pySlice l i j).length ≤ j - i := by
    rw [pySlice]
    exact List.length_take_le _ _
  have h2 : 16 ^ (pySlice l i j).length ≤ 16 ^ 2 :=
    Nat.pow_le_pow_right (by norm_num) (le_trans h1 hij)
  omega

/-- Every triple produced by `hex_to_rgb` has byte-sized channels: each comes
from a two-character slice. -/
theorem hex_to_rgb_le {s : String} {c : Rgb} (h : hex_to_rgb s = some c) :
    c.1 ≤ 255 ∧ c.2.1 ≤ 255 ∧ c.2.2 ≤ 255 := by
  rw [hex_to_rgb] at h
  split at h
  · rename_i r g b hr hg hb
    have hc := Option.some.inj h
    rw [← hc]
    exact ⟨parseHexNat_slice_le (by norm_num) hr,
      parseHexNat_slice_le (by norm_num) hg,
      parseHexNat_slice_le (by norm_num) hb⟩
  · exact absurd h (by simp)

theorem labOfHex_of_parse {s : String} {c : Rgb} (h : hex_to_rgb s = some c) :
    labOfHex s = toLab c := by
  rw [labOfHex, h]

/-- Per-pixel idempotence of the direct replacement over a built index whose
palette colors all parse: every pixel is mapped to a fixed point of the
replacement. -/
theorem replacePixel_builtIndex_idem (S P : List String) (t : ℝ)
    (hP : ∀ p ∈ P, (hex_to_rgb p).isSome) (c : Rgb) :
    ∃ v : Rgb, replacePixel (builtIndex S P t) c = some v ∧
      replacePixel (builtIndex S P t) v = some v := by
  by_cases hmem : rgbNatToHex c ∈ S
  · cases hl : similarity_scores color_distance (rgbNatToHex c) P t with
    | nil =>
      have hM : builtIndex S P t (rgbNatToHex c) = some [] := by
        show (if rgbNatToHex c ∈ S then
          some (similarity_scores color_distance (rgbNatToHex c) P t) else none) = _
        rw [if_pos hmem, hl]
      refine ⟨c, ?_, ?_⟩ <;> rw [replacePixel, hM]
    | cons e l0 =>
      have hM : builtIndex S P t (rgbNatToHex c) = some (e :: l0) := by
        show (if rgbNatToHex c ∈ S then
          some (similarity_scores color_distance (rgbNatToHex c) P t) else none) = _
        rw [if_pos hmem, hl]
      have hbest : pyMinByVal e l0 ∈ similarity_scores color_distance (rgbNatToHex c) P t := by
        rw [hl]
        exact pyMinByVal_mem e l0
      obtain ⟨hval, hle, hmemP⟩ :=
        similarity_scores_sound color_distance (rgbNatToHex c) P t _ hbest
      obtain ⟨v, hv⟩ := Option.isSome_iff_exists.mp (hP _ hmemP)
      have ht0 : (0 : ℝ) ≤ t := by
        have hd : (0 : ℝ) ≤ color_distance (pyMinByVal e l0).1 (rgbNatToHex c) :=
          deltaE00_nonneg _ _
        rw [← hval] at hd
        linarith
      have hv255 := hex_to_rgb_le hv
      refine ⟨v, ?_, ?_⟩
      · rw [replacePixel, hM]
        exact hv
      · by_cases hmem2 : rgbNatToHex v ∈ S
        · cases hl2 : similarity_scores color_distance (rgbNatToHex v) P t with
          | nil =>
            have hM2 : builtIndex S P t (rgbNatToHex v) = some [] := by
              show (if rgbNatToHex v ∈ S then
                some (similarity_scores color_distance (rgbNatToHex v) P t) else none) = _
              rw [if_pos hmem2, hl2]
            rw [replacePixel, hM2]
          | cons e2 l2 =>
            have hM2 : builtIndex S P t (rgbNatToHex v) = some (e2 :: l2) := by
              show (if rgbNatToHex v ∈ S then
                some (similarity_scores color_distance (rgbNatToHex v) P t) else none) = _
              rw [if_pos hmem2, hl2]
            have hbest2 : pyMinByVal e2 l2 ∈
                similarity_scores color_distance (rgbNatToHex v) P t := by
              rw [hl2]
              exact pyMinByVal_mem e2 l2
            obtain ⟨hval2, hle2, hmemP2⟩ :=
              similarity_scores_sound color_distance (rgbNatToHex v) P t _ hbest2
            obtain ⟨w, hw⟩ := Option.isSome_iff_exists.mp (hP _ hmemP2)
            have hdist0 : color_distance (pyMinByVal e l0).1 (rgbNatToHex v) = 0 := by
              rw [color_distance, labOfHex_of_parse hv,
                labOfHex_rgbNatToHex hv255.1 hv255.2.1 hv255.2.2]
              exact deltaE00_self _
            have hcompl := similarity_scores_complete color_distance (rgbNatToHex v) P t
              hmemP (by rw [hdist0]; exact ht0)
            rw [hl2] at hcompl
            have hminle := pyMinByVal_le e2 l2 _ hcompl
            have hminle0 : (pyMinByVal e2 l2).2 ≤ 0 := by
              rw [hdist0] at hminle
              exact hminle
            have hminge : (0 : ℝ) ≤ (pyMinByVal e2 l2).2 := by
              rw [hval2]
              exact deltaE00_nonneg _ _
            have hd2 : color_distance (pyMinByVal e2 l2).1 (rgbNatToHex v) = 0 := by
              rw [← hval2]
              exact le_antisymm hminle0 hminge
            have hlab : labOfHex (pyMinByVal e2 l2).1 = labOfHex (rgbNatToHex v) :=
              (deltaE00_eq_zero_iff _ _).mp hd2
            have hwv : w = v := by
              apply toLab_inj
              rw [← labOfHex_of_parse hw, hlab,
                labOfHex_rgbNatToHex hv255.1 hv255.2.1 hv255.2.2]
            rw [replacePixel, hM2]
            show hex_to_rgb (pyMinByVal e2 l2).1 = some v
            rw [hw, hwv]
        · have hM2 : builtIndex S P t (rgbNatToHex v) = none := by
            show (if rgbNatToHex v ∈ S then
              some (similarity_scores color_distance (rgbNatToHex v) P t) else none) = _
            rw [if_neg hmem2]
          rw [replacePixel, hM2]
  · have hM : builtIndex S P t (rgbNatToHex c) = none := by
      show (if rgbNatToHex c ∈ S then
        some (similarity_scores color_distance (rgbNatToHex c) P t) else none) = _
      rw [if_neg hmem]
    refine ⟨c, ?_, ?_⟩ <;> rw [replacePixel, hM]

/-- C5: the direct remap is idempotent over a similarity index built by
`similarity_scores` from a palette whose colors all parse: if a first
Direct-mode pass over `img` produced `out`, a second Direct-mode pass with the
same index succeeds and returns `out` itself, changing no pixel. -/
theorem C5_direct_remap_idempotent (S P : List String) (t : ℝ) (img out : Img)
    (hP : ∀ p ∈ P, (hex_to_rgb p).isSome)
    (h1 : replace_colors (builtIndex S P t) img = some out) :
    replace_colors (builtIndex S P t) out = some out := by
  rw [replace_colors] at h1
  split_ifs at h1 with hguard
  · have hout := Option.some.inj h1
    have hpix : ∀ y x : ℕ,
        replacePixel (builtIndex S P t) (out.pix y x) = some (out.pix y x) := by
      intro y x
      have hox : out.pix y x =
          (replacePixel (builtIndex S P t) (img.pix y x)).getD (img.pix y x) := by
        rw [← hout]
      obtain ⟨v, hv1, hv2⟩ := replacePixel_builtIndex_idem S P t hP (img.pix y x)
      rw [hox, hv1]
      exact hv2
    rw [replace_colors, if_pos ?_]
    · refine congrArg some ?_
      have hpixfun : (fun y x =>
          (replacePixel (builtIndex S P t) (out.pix y x)).getD (out.pix y x)) =
          out.pix := by
        funext y x
        rw [hpix y x]
        rfl
      rw [hpixfun]
    · intro y hy x hx
      rw [hpix y x]
      rfl

theorem C5_direct_remap_idempotent_witness :
    replace_colors (builtIndex [] [] 0)
      { width := 1, height := 1, pix := fun _ _ => (0, 0, 0) } =
      some { width := 1, height := 1, pix := fun _ _ => (0, 0, 0) } := by
  have h1 : replace_colors (builtIndex [] [] 0)
      { width := 1, height := 1, pix := fun _ _ => (0, 0, 0) } =
      some { width := 1, height := 1, pix := fun _ _ => (0, 0, 0) } := rfl
  exact C5_direct_remap_idempotent [] [] 0 _ _ (by simp) h1
